import Mathlib

/-!
# eEVM: word serialisation, log entries and the summing sample

A shallow embedding of `include/eEVM/bigint.h`, `core/src/transaction.cpp` and
`samples/sum/main.cpp`.

Conventions of the embedding:

* a `uint256_t` is a `Nat` below `2 ^ 256`, a `uint64_t` a `Nat` below `2 ^ 64`, a
  `uint8_t` a `Nat` below `256`; every narrowing conversion of the source is an
  explicit `%`;
* a byte buffer (`uint8_t*`, `std::vector<uint8_t>`) is a `List Nat`;
* a pointer into a buffer is the pair of the buffer and an offset, together with the
  numeric address of the buffer's first byte where the source inspects the address.
-/

namespace eEVM

/-! ## bigint.h : to_big_endian -/

/-- The modulus of `uint256_t`. -/
def UINT256_MOD : Nat := 2 ^ 256

/-- The constant `mask64 = 0xffffffff'ffffffff` of `to_big_endian`. -/
def mask64 : Nat := 0xffffffffffffffff

/-- The constant `mask8 = 0xff` of `to_big_endian`. -/
def mask8 : Nat := 0xff

/-- `alignof(uint64_t)` on the 64-bit targets the library is built for. -/
def alignof_uint64 : Nat := 8

/-- `boost::endian::endian_reverse` on a `uint64_t`: the value whose byte `7 - k` is
byte `k` of `x` (bytes counted from the least significant one). -/
def endian_reverse64 (x : Nat) : Nat :=
  ((x >>> 0) % 256) <<< 56 + ((x >>> 8) % 256) <<< 48 + ((x >>> 16) % 256) <<< 40 +
  ((x >>> 24) % 256) <<< 32 + ((x >>> 32) % 256) <<< 24 + ((x >>> 40) % 256) <<< 16 +
  ((x >>> 48) % 256) <<< 8 + ((x >>> 56) % 256) <<< 0

/-- `boost::endian::native_to_big` on a `uint64_t`. `hostBig` is the byte order of the
machine: the identity on a big-endian host, a byte reversal on a little-endian one. -/
def native_to_big64 (hostBig : Bool) (x : Nat) : Nat :=
  if hostBig then x else endian_reverse64 x

/-- `boost::endian::native_to_big` on a `uint8_t`: a single byte has no order. -/
def native_to_big8 (x : Nat) : Nat := x

/-- The byte that a store of the `uint64_t` value `x` leaves at byte position `k`
(`k < 8`) of the stored object, in the byte order of the host. -/
def stored_byte64 (hostBig : Bool) (x : Nat) (k : Nat) : Nat :=
  if hostBig then (x >>> (8 * (7 - k))) % 256 else (x >>> (8 * k)) % 256

/-- The assignment `o[i] = x` through a `uint64_t*`: the eight bytes of `mem` from byte
offset `p` on receive the object representation of `x`. -/
def store64 (hostBig : Bool) (mem : List Nat) (p : Nat) (x : Nat) : List Nat :=
  (List.range 8).foldl (fun m k => m.set (p + k) (stored_byte64 hostBig x k)) mem

/-- The loop `for (size_t i = 4; i-- > 0;)` of the aligned branch of `to_big_endian`;
the first argument is the value of `i` before the test. -/
def to_big_endian_loop64 (hostBig : Bool) : Nat → Nat → List Nat → Nat → List Nat
  | 0, _, mem, _ => mem
  | i + 1, v, mem, off =>
    let n := (v &&& mask64) % 2 ^ 64
    let v := v >>> 64
    to_big_endian_loop64 hostBig i v (store64 hostBig mem (off + 8 * i) (native_to_big64 hostBig n)) off

/-- The loop `for (size_t i = 32; i-- > 0;)` of the byte-by-byte branch of
`to_big_endian`; the first argument is the value of `i` before the test. -/
def to_big_endian_loop8 : Nat → Nat → List Nat → Nat → List Nat
  | 0, _, mem, _ => mem
  | i + 1, v, mem, off =>
    let n := (v &&& mask8) % 2 ^ 8
    let v := v >>> 8
    to_big_endian_loop8 i v (mem.set (off + i) (native_to_big8 n)) off

/-- `to_big_endian(v, out)` where `out` points at byte `off` of the buffer `mem` whose
first byte has the address `base`. Returns the buffer after the call. -/
def to_big_endian (hostBig : Bool) (base : Nat) (v : Nat) (mem : List Nat) (off : Nat) : List Nat :=
  if (base + off) % alignof_uint64 == 0 then
    to_big_endian_loop64 hostBig 4 v mem off
  else
    to_big_endian_loop8 32 v mem off

/-! ## bigint.h : from_big_endian -/

/-- `boost::multiprecision::detail::assign_bits` for a chunk of eight bits into the four
64-bit limbs of a `uint256_t`: the chunk is or-ed in at `bit_location`, and a chunk
whose limb index `bit_location / 64` is not below four is dropped. -/
def assign_bits (val : Nat) (bits : Nat) (bit_location : Nat) : Nat :=
  if bit_location / 64 < 4 then val ||| ((bits &&& 0xff) <<< bit_location) else val

/-- The loop `while (i != j)` of `boost::multiprecision::import_bits` with
`chunk_size = 8` and `msv_first = true`: the second argument is the range still to
read, whose first byte goes to bit `8 * (length - 1)`; every byte read moves
`bit_location` down by eight. -/
def import_bits_loop : Nat → List Nat → Nat
  | newval, [] => newval
  | newval, b :: rest => import_bits_loop (assign_bits newval b (8 * rest.length)) rest

/-- `from_big_endian(begin, end)` over the bytes of the range:
`import_bits(v, begin, end, 8, true)` on a zero `uint256_t`. -/
def from_big_endian (bytes : List Nat) : Nat :=
  import_bits_loop 0 bytes

/-! ## bigint.h : get_sign, power -/

/-- `get_sign(v)`: `(v >> 255) ? -1 : 1`. -/
def get_sign (v : Nat) : Int :=
  if (v >>> 255) != 0 then -1 else 1

/-- The two's-complement reading of a 256-bit word, as the specification words it: the
top bit is the sign, so words from `2 ^ 255` on stand for `v - 2 ^ 256`. -/
def twos_complement_value (v : Nat) : Int :=
  if v < 2 ^ 255 then (v : Int) else (v : Int) - 2 ^ 256

/-- `static_cast<unsigned int>(e)` of a `uint64_t`: `unsigned int` has 32 bits on the
targets the library is built for, the conversion keeps the low 32 bits. -/
def to_unsigned_int (e : Nat) : Nat := e % 2 ^ 32

/-- `boost::multiprecision::pow(b, e)` on `uint256_t`: the power, reduced modulo
`2 ^ 256` as every product of the unchecked fixed-width type is. -/
def boost_pow (b : Nat) (e : Nat) : Nat := (b ^ e) % UINT256_MOD

/-- `power(b, e)`: `boost::multiprecision::pow(b, static_cast<unsigned int>(e))`. -/
def power (b : Nat) (e : Nat) : Nat := boost_pow b (to_unsigned_int e)

/-! ## samples/sum/main.cpp : the sender address -/

/-- The vector `raw_address(160)` of `main` after
`std::generate(raw_address.begin(), raw_address.end(), []() { return rand(); })`:
`rand k` is what the `k`-th call of `rand()` returns, and storing it in a `uint8_t`
keeps its low eight bits. -/
def raw_address (rand : Nat → Nat) : List Nat :=
  (List.range 160).map (fun k => rand k % 256)

/-- The `sender` of `main`: `from_big_endian(raw_address.begin(), raw_address.end())`. -/
def sender (rand : Nat → Nat) : Nat :=
  from_big_endian (raw_address rand)

/-- The number a byte sequence denotes when read most significant byte first: the sum
of `b[i] * 256 ^ (n - 1 - i)`, by recursion on the sequence. -/
def be_sum : List Nat → Nat
  | [] => 0
  | b :: rest => b * 256 ^ rest.length + be_sum rest

/-! ## bigint.h : to_hex_str, to_lower_hex_str, from_hex_str

Strings are lists of characters. The stream insertion and extraction operators of
`boost::multiprecision` are modelled on their behaviour for `uint256_t` (an unchecked
fixed-width unsigned `cpp_int` of four 64-bit limbs). -/

/-- The character the hexadecimal output of `cpp_int` writes for a four-bit digit:
`'0' + d`, moved up to the letters from `'a'` when that is past `'9'` (the stream of
`to_hex_str` does not have `std::ios_base::uppercase` set). -/
def hex_char (d : Nat) : Char :=
  "0123456789abcdef".toList.getD d '0'

/-- The loop of the hexadecimal branch of `cpp_int`'s `do_get_string`: the digit of the
low four bits is written at the current end position, the value shifted right by four,
`n` times; `acc` holds the characters already written to the right. -/
def hex_fill : Nat → Nat → List Char → List Char
  | 0, _, acc => acc
  | n + 1, t, acc => hex_fill n (t >>> 4) (hex_char (t &&& 15) :: acc)

/-- The tail of `do_get_string`: `n = result.find_first_not_of('0')`, with
`n = result.size() - 1` when there is no such position, then `result.erase(0, n)`. -/
def erase_leading_zeros (s : List Char) : List Char :=
  match s.dropWhile (fun c => c == '0') with
  | [] => s.drop (s.length - 1)
  | c :: r => c :: r

/-- The number of 64-bit limbs a normalised `uint256_t` has in use (`size()`): the
limbs up to the highest one that is not zero, one limb for zero. -/
def limbs_in_use (v : Nat) : Nat :=
  if v < 2 ^ 64 then 1 else if v < 2 ^ 128 then 2 else if v < 2 ^ 192 then 3 else 4

/-- What `ss << std::hex << v` writes for a `uint256_t` (`do_get_string`): one digit for
every four bits of the limbs in use, then the leading zeros erased. -/
def uint256_hex (v : Nat) : List Char :=
  erase_leading_zeros (hex_fill (limbs_in_use v * 64 / 4) v [])

/-- `to_hex_str(v)`: `"0x"` followed by the hexadecimal output of `v`. -/
def to_hex_str (v : Nat) : List Char :=
  "0x".toList ++ uint256_hex v

/-- The function `::tolower` in the "C" locale. -/
def tolower (c : Char) : Char := c.toLower

/-- `to_lower_hex_str(v)`: `to_hex_str(v)` with `::tolower` applied to every character. -/
def to_lower_hex_str (v : Nat) : List Char :=
  (to_hex_str v).map tolower

/-- The value of a hexadecimal digit in `cpp_int`'s `do_assign_string`; `none` for any
other character, where the library throws `std::runtime_error`. -/
def hex_val (c : Char) : Option Nat :=
  if '0' ≤ c ∧ c ≤ '9' then some (c.toNat - '0'.toNat)
  else if 'a' ≤ c ∧ c ≤ 'f' then some (10 + (c.toNat - 'a'.toNat))
  else if 'A' ≤ c ∧ c ≤ 'F' then some (10 + (c.toNat - 'A'.toNat))
  else none

/-- The digit loop of the radix-16 branch of `do_assign_string`: the digit in front of
`rest` belongs at bit `4 * rest.length` and is or-ed into its limb, unless that limb is
not one of the four of a `uint256_t`. -/
def parse_hex_loop : Nat → List Char → Option Nat
  | result, [] => some result
  | result, c :: rest =>
    match hex_val c with
    | none => none
    | some d =>
      parse_hex_loop
        (if 4 * rest.length / 64 < 4 then result ||| (d <<< (4 * rest.length)) else result) rest

/-- The radix-16 branch of `do_assign_string` after the `0x`: leading zeros are skipped,
then the digits are read. -/
def parse_hex (digits : List Char) : Option Nat :=
  parse_hex_loop 0 (digits.dropWhile (fun c => c == '0'))

/-- The function `std::isspace` in the "C" locale. -/
def isspace (c : Char) : Bool :=
  c.toNat == 32 || (9 ≤ c.toNat && c.toNat ≤ 13)

/-- The characters the extraction operator of a `cpp_int` reads from a stream whose
`std::hex` flag is set. -/
def hex_permitted : List Char := "+-xXabcdefABCDEF0123456789".toList

/-- The function `detail::read_string_while` on the stream's content: leading white space
is skipped, then characters are taken while they are permitted. -/
def read_string_while (s : List Char) : List Char :=
  (s.dropWhile isspace).takeWhile (fun c => hex_permitted.contains c)

/-- The step of the extraction operator that puts `0x` in front of a token read under
`std::hex` that does not start with it: `s.insert(s.find_first_not_of("+-"), "0x")`.
`none` when there is no such position (`std::out_of_range`). -/
def with_hex_base (t : List Char) : Option (List Char) :=
  match t with
  | '0' :: 'x' :: _ => some t
  | _ =>
    match t.dropWhile (fun c => c == '+' || c == '-') with
    | [] => none
    | c :: r => some (t.takeWhile (fun c => c == '+' || c == '-') ++ ('0' :: 'x' :: c :: r))

/-- The negation of an unchecked `uint256_t`: two's complement. -/
def negate256 (x : Nat) : Nat := (UINT256_MOD - x % UINT256_MOD) % UINT256_MOD

/-- The assignment `r.assign(s)` for the tokens `with_hex_base` produces: an optional
`-`, then `0x` or `0X`, then hexadecimal digits. Any other first character sends
`do_assign_string` to its decimal branch, which throws on the sign or the `x`. -/
def assign_string (s : List Char) : Option Nat :=
  match s with
  | '-' :: '0' :: x :: digits =>
    if x == 'x' || x == 'X' then (parse_hex digits).map negate256 else none
  | '0' :: x :: digits =>
    if x == 'x' || x == 'X' then parse_hex digits else none
  | _ => none

/-- `from_hex_str(s)`: `ss << std::hex << s; uint256_t v; ss >> v; return v;`. An empty
token sets the stream's fail bit and leaves `v` at its initial zero; `none` stands for
an exception leaving the function. -/
def from_hex_str (s : List Char) : Option Nat :=
  match read_string_while s with
  | [] => some 0
  | c :: r => (with_hex_base (c :: r)).bind assign_string

/-- The `n` low hexadecimal digits of `t`, most significant first. -/
def nibbles : Nat → Nat → List Nat
  | 0, _ => []
  | n + 1, t => nibbles n (t >>> 4) ++ [t % 16]

/-- The number a sequence of hexadecimal digits denotes, most significant first. -/
def digits_value : List Nat → Nat
  | [] => 0
  | d :: rest => d * 16 ^ rest.length + digits_value rest

/-! ## nlohmann::json values and the conversions of bigint.h -/

/-- The values of `nlohmann::json` the conversions of this repository build and read:
`null` (a default-constructed value), strings, arrays and objects. The fields of an
object are kept as a list of key and value in which no key occurs twice. -/
inductive Json where
  | null : Json
  | string : List Char → Json
  | array : List Json → Json
  | object : List (String × Json) → Json

/-- The fields of an object after `j[key] = value`: the value of an existing key is
replaced, a new key is added. -/
def set_field : List (String × Json) → String → Json → List (String × Json)
  | [], key, value => [(key, value)]
  | (k, v) :: rest, key, value =>
    if k == key then (key, value) :: rest else (k, v) :: set_field rest key value

/-- The statement `j[key] = value` on a mutable `nlohmann::json`: a `null` value becomes
an object first; on a value that is neither `null` nor an object `operator[]` throws
(`none`). -/
def Json.assign_key (j : Json) (key : String) (value : Json) : Option Json :=
  match j with
  | Json.null => some (Json.object [(key, value)])
  | Json.object fields => some (Json.object (set_field fields key value))
  | _ => none

/-- The expression `j[key]` on a `const nlohmann::json`: the value of the key in an
object that has it; `none` where the library throws or asserts. -/
def Json.at_key (j : Json) (key : String) : Option Json :=
  match j with
  | Json.object fields => fields.lookup key
  | _ => none

/-- The conversion of a `nlohmann::json` to `std::string`; `none` (a `type_error`) for a
value that is not a string. -/
def Json.get_string (j : Json) : Option (List Char) :=
  match j with
  | Json.string s => some s
  | _ => none

/-- `boost::multiprecision::to_json(j, v)`: `j = to_lower_hex_str(v)`. -/
def multiprecision.to_json (v : Nat) : Json :=
  Json.string (to_lower_hex_str v)

/-- `boost::multiprecision::from_json(j, v)`: `v = from_hex_str(j)`, the JSON value
converted to a `std::string`. -/
def multiprecision.from_json (j : Json) : Option Nat :=
  j.get_string.bind from_hex_str

/-- The conversion of a `std::vector<uint256_t>` to JSON: the array of the converted
elements, in order. -/
def vector_to_json (vs : List Nat) : Json :=
  Json.array (vs.map multiprecision.to_json)

/-- The elements of a JSON array converted to `uint256_t`, in order. -/
def vector_from_json_items : List Json → Option (List Nat)
  | [] => some []
  | j :: rest =>
    match multiprecision.from_json j, vector_from_json_items rest with
    | some v, some vs => some (v :: vs)
    | _, _ => none

/-- The conversion of JSON to a `std::vector<uint256_t>`; `none` (a `type_error`) for a
value that is not an array. -/
def vector_from_json (j : Json) : Option (List Nat) :=
  match j with
  | Json.array items => vector_from_json_items items
  | _ => none

/-! ## transaction.cpp : LogEntry -/

/-- Modelled from the spec: the struct `LogEntry` of `eEVM/transaction.h`, which is not
among the sources: "{ emitting address, opaque data bytes, ordered sequence of topic
words }". The address is a 256-bit word, as `sender` in `main` is; `data` and `topics`
are vectors, which `transaction.cpp` compares with `==` and converts to and from JSON
whole. -/
structure LogEntry where
  address : Nat
  data : List Nat
  topics : List Nat
  deriving DecidableEq

/-- The comparison `==` of two `std::vector`s: equal sizes and equal elements at every
position. -/
def vector_eq (a b : List Nat) : Bool :=
  a.length == b.length && (List.zipWith (fun x y => x == y) a b).all id

/-- `LogEntry::operator==`:
`address == that.address && data == that.data && topics == that.topics`. -/
def LogEntry.operator_eq (self that : LogEntry) : Bool :=
  self.address == that.address && vector_eq self.data that.data &&
    vector_eq self.topics that.topics

/-- Modelled from the spec: `to_hex_string` of `eEVM/util.h`, which is not among the
sources. The `data` field is a "lowercase hex string, no length prefix beyond the bytes
themselves": two lowercase hexadecimal digits for every byte, in order. -/
def to_hex_string : List Nat → List Char
  | [] => []
  | b :: rest => hex_char (b / 16 % 16) :: hex_char (b % 16) :: to_hex_string rest

/-- Modelled from the spec: `to_bytes` of `eEVM/util.h`, which is not among the sources.
It decodes the hex string of the `data` field: one byte for every two hexadecimal
digits, in order; a string that is not made of such pairs decodes to nothing. -/
def to_bytes : List Char → Option (List Nat)
  | [] => some []
  | [_] => none
  | c1 :: c2 :: rest =>
    match hex_val c1, hex_val c2, to_bytes rest with
    | some h, some l, some bytes => some ((16 * h + l) :: bytes)
    | _, _, _ => none

/-- `to_json(j, log)` for a `LogEntry`: the three assignments `j["address"] =
log.address`, `j["data"] = to_hex_string(log.data)` and `j["topics"] = log.topics` on
the value `j` passed in. -/
def to_json (j : Json) (log : LogEntry) : Option Json :=
  ((j.assign_key "address" (multiprecision.to_json log.address)).bind
    (fun j1 => j1.assign_key "data" (Json.string (to_hex_string log.data)))).bind
    (fun j2 => j2.assign_key "topics" (vector_to_json log.topics))

/-- `from_json(j, log)` for a `LogEntry`: every member of `log` is given the converted
value of its field (`assign_j_const` of `eEVM/util.h` stores the converted value in the
member); `none` where a conversion throws. -/
def from_json (j : Json) : Option LogEntry :=
  match (j.at_key "address").bind multiprecision.from_json,
    ((j.at_key "data").bind Json.get_string).bind to_bytes,
    (j.at_key "topics").bind vector_from_json with
  | some address, some data, some topics => some ⟨address, data, topics⟩
  | _, _, _ => none

/-! ## samples/sum/main.cpp : the summing bytecode -/

/-- Modelled from the spec: the enumerator `PUSH32` of `eevm::Opcode` (`eEVM/opcode.h`,
which is not among the sources), "a single-byte instruction identifying one VM
operation", with the byte the instruction has in this VM family. -/
def Opcode.PUSH32 : Nat := 0x7f

/-- Modelled from the spec: the enumerator `PUSH1` of `eevm::Opcode` (`eEVM/opcode.h`,
which is not among the sources), with the byte the instruction has in this VM family. -/
def Opcode.PUSH1 : Nat := 0x60

/-- Modelled from the spec: the enumerator `ADD` of `eevm::Opcode` (`eEVM/opcode.h`,
which is not among the sources), with the byte the instruction has in this VM family. -/
def Opcode.ADD : Nat := 0x01

/-- Modelled from the spec: the enumerator `MSTORE` of `eevm::Opcode` (`eEVM/opcode.h`,
which is not among the sources), with the byte the instruction has in this VM family. -/
def Opcode.MSTORE : Nat := 0x52

/-- Modelled from the spec: the enumerator `RETURN` of `eevm::Opcode` (`eEVM/opcode.h`,
which is not among the sources), with the byte the instruction has in this VM family. -/
def Opcode.RETURN : Nat := 0xf3

/-- Modelled from the spec: the enumerator `STOP` of `eevm::Opcode` (`eEVM/opcode.h`,
which is not among the sources), with the byte the instruction has in this VM family. -/
def Opcode.STOP : Nat := 0x00

/-- `push_uint256(code, n)`: the opcode is appended, the vector resized by 32
value-initialised bytes, and `n` serialised at `code.data() + pre_size`; `data_addr` is
the address `code.data()` has after the resize. -/
def push_uint256 (hostBig : Bool) (data_addr : Nat) (code : List Nat) (n : Nat) : List Nat :=
  let code := code ++ [Opcode.PUSH32]
  let pre_size := code.length
  let code := code ++ List.replicate 32 0
  to_big_endian hostBig data_addr n code pre_size

/-- `create_a_plus_b_bytecode(a, b)`; `addr_a` and `addr_b` are the addresses the
vector's storage has in the two calls of `push_uint256`. -/
def create_a_plus_b_bytecode (hostBig : Bool) (addr_a addr_b : Nat) (a b : Nat) : List Nat :=
  let code : List Nat := []
  let mdest : Nat := 0x0
  let rsize : Nat := 0x20
  let code := push_uint256 hostBig addr_a code a
  let code := push_uint256 hostBig addr_b code b
  let code := code ++ [Opcode.ADD]
  let code := code ++ [Opcode.PUSH1]
  let code := code ++ [mdest]
  let code := code ++ [Opcode.MSTORE]
  let code := code ++ [Opcode.PUSH1]
  let code := code ++ [rsize]
  let code := code ++ [Opcode.PUSH1]
  let code := code ++ [mdest]
  let code := code ++ [Opcode.RETURN]
  code

/-- The 32-byte big-endian encoding of a word: byte `i` is `(v >> (8 * (31 - i))) mod
256`. -/
def word_bytes (v : Nat) : List Nat :=
  (List.range 32).map (fun i => (v >>> (8 * (31 - i))) % 256)

/-! ## The interpreter on the opcodes of the sample

`eEVM/processor.h` and its implementation are not among the sources. The machine below
follows section 4 of the specification for the opcodes the summing bytecode is made of. -/

/-- Modelled from the spec: the exit reasons of an execution, "exit reason ∈ {returned,
reverted, threw, halted}" (`eevm::ExitReason`, not among the sources). -/
inductive ExitReason where
  | returned : ExitReason
  | reverted : ExitReason
  | threw : ExitReason
  | halted : ExitReason
  deriving DecidableEq

/-- Modelled from the spec: "Execution Result: { exit reason, output bytes, gas used }"
(`eevm::ExecResult`, not among the sources). -/
structure ExecResult where
  er : ExitReason
  output : List Nat
  gas_used : Nat
  deriving DecidableEq

/-- Modelled from the spec: the opcode cost table, which the specification leaves to
"the authoritative opcode cost table": the base cost of every opcode, and the cost of
a memory of a given number of 32-byte words (the "linear term + quadratic term"). -/
structure GasSchedule where
  base : Nat → Nat
  memory : Nat → Nat

/-- Modelled from the spec: the part of a "Call Frame" the opcodes of the sample touch:
"program counter, stack (≤1024 words), memory (byte sequence, grows in word-aligned
increments), gas remaining". The top of the stack is the head of the list. -/
structure Frame where
  pc : Nat
  stack : List Nat
  memory : List Nat
  gas : Nat

/-- Modelled from the spec: the outcome of one step of the dispatch loop: the frame
keeps running, or it has halted with a result; `unmodelled` marks an opcode outside the
fragment of the sample, about which this development says nothing. -/
inductive Step where
  | running : Frame → Step
  | halted : ExecResult → Step
  | unmodelled : Step

/-- Modelled from the spec: a fault of the frame, "`threw`": the output is empty and
"ALL gas allocated to that frame is consumed". -/
def threw (budget : Nat) : Step :=
  Step.halted ⟨ExitReason.threw, [], budget⟩

/-- Modelled from the spec: memory after an access of `size` bytes at `offset`: "any
access beyond current length triggers expansion to the next word-aligned boundary
covering the access", the new bytes being zero. -/
def expand_memory (memory : List Nat) (offset size : Nat) : List Nat :=
  if size = 0 ∨ offset + size ≤ memory.length then memory
  else memory ++ List.replicate (32 * ((offset + size + 31) / 32) - memory.length) 0

/-- Modelled from the spec: the gas of a memory access, "charged only for the new
highwater mark, never for re-access within existing bounds". -/
def expansion_gas (sched : GasSchedule) (memory : List Nat) (offset size : Nat) : Nat :=
  if size = 0 ∨ offset + size ≤ memory.length then 0
  else sched.memory ((offset + size + 31) / 32) - sched.memory (memory.length / 32)

/-- Modelled from the spec: the "word-level store (32-byte, big-endian)" into a memory
that covers the 32 bytes from `offset`. -/
def store_word (memory : List Nat) (offset : Nat) (v : Nat) : List Nat :=
  memory.take offset ++ word_bytes v ++ memory.drop (offset + 32)

/-- Modelled from the spec: one step of the dispatch loop of section 4.4 on a running
frame, for the opcodes `STOP`, `ADD`, `MSTORE`, `PUSH1`, `PUSH32` and `RETURN`: fetch
(a program counter beyond the code is an implicit `STOP`), check the operands on the
stack, charge base and dynamic gas, execute, advance the program counter. `budget` is
the gas the frame was given. -/
def step (sched : GasSchedule) (budget : Nat) (code : List Nat) (f : Frame) : Step :=
  match code[f.pc]? with
  | none => Step.halted ⟨ExitReason.returned, [], budget - f.gas⟩
  | some op =>
    if op = Opcode.STOP then
      if f.gas < sched.base op then threw budget
      else Step.halted ⟨ExitReason.returned, [], budget - (f.gas - sched.base op)⟩
    else if op = Opcode.ADD then
      match f.stack with
      | x :: y :: rest =>
        if f.gas < sched.base op then threw budget
        else Step.running
          { pc := f.pc + 1, stack := ((x + y) % UINT256_MOD) :: rest, memory := f.memory,
            gas := f.gas - sched.base op }
      | _ => threw budget
    else if op = Opcode.PUSH1 ∨ op = Opcode.PUSH32 then
      let n := if op = Opcode.PUSH1 then 1 else 32
      if code.length < f.pc + 1 + n then Step.unmodelled
      else if f.gas < sched.base op then threw budget
      else if 1024 < f.stack.length + 1 then threw budget
      else Step.running
        { pc := f.pc + 1 + n,
          stack := from_big_endian ((code.drop (f.pc + 1)).take n) :: f.stack,
          memory := f.memory, gas := f.gas - sched.base op }
    else if op = Opcode.MSTORE then
      match f.stack with
      | offset :: value :: rest =>
        if f.gas < sched.base op + expansion_gas sched f.memory offset 32 then threw budget
        else Step.running
          { pc := f.pc + 1, stack := rest,
            memory := store_word (expand_memory f.memory offset 32) offset value,
            gas := f.gas - (sched.base op + expansion_gas sched f.memory offset 32) }
      | _ => threw budget
    else if op = Opcode.RETURN then
      match f.stack with
      | offset :: size :: _ =>
        if f.gas < sched.base op + expansion_gas sched f.memory offset size then threw budget
        else Step.halted
          ⟨ExitReason.returned, ((expand_memory f.memory offset size).drop offset).take size,
            budget - (f.gas - (sched.base op + expansion_gas sched f.memory offset size))⟩
      | _ => threw budget
    else Step.unmodelled

/-- Modelled from the spec: the dispatch loop, "runs until halt/error/gas-exhaustion";
`none` when the steps allowed are used up or an opcode outside the fragment is met. -/
def run_loop (sched : GasSchedule) (budget : Nat) (code : List Nat) : Nat → Frame → Option ExecResult
  | 0, _ => none
  | fuel + 1, f =>
    match step sched budget code f with
    | Step.running f' => run_loop sched budget code fuel f'
    | Step.halted r => some r
    | Step.unmodelled => none

/-- Modelled from the spec: the run entry point on the code of the target account and a
gas budget, from "program counter 0 with an empty stack and empty memory". Every opcode
of the fragment moves the program counter forward, so one step more than the code has
bytes is enough for any run. -/
def run (sched : GasSchedule) (code : List Nat) (gas : Nat) : Option ExecResult :=
  run_loop sched gas code (code.length + 1) ⟨0, [], [], gas⟩

/-- The gas the summing bytecode is charged under a cost table: two `PUSH32`, `ADD`,
`PUSH1`, `MSTORE` with the first word of memory, two `PUSH1`, `RETURN`. -/
def sum_program_gas (sched : GasSchedule) : Nat :=
  sched.base Opcode.PUSH32 + sched.base Opcode.PUSH32 + sched.base Opcode.ADD +
  sched.base Opcode.PUSH1 + (sched.base Opcode.MSTORE + (sched.memory 1 - sched.memory 0)) +
  sched.base Opcode.PUSH1 + sched.base Opcode.PUSH1 + sched.base Opcode.RETURN

/-! ## The run with its log

The interpreter above answers `threw` for every fault and keeps no record of the opcodes
it has dispatched. The definitions below run the same steps and keep both. -/

/-- Modelled from the spec: an account of the world state, "Account: { address, balance:
word, nonce: unsigned integer, code: byte sequence, storage: mapping from word to
word }" (the account classes of the library are not among the sources). -/
structure Account where
  address : Nat
  balance : Nat
  nonce : Nat
  code : List Nat
  storage : List (Nat × Nat)
  deriving DecidableEq

/-- Modelled from the spec: `create_account(address, balance, code) -> Account` of the
world-state interface, which `gs.create(to, 0, code)` of `main` stands for
(`simple/simpleglobalstate.h` is not among the sources): the new account and the state
that holds it. -/
def create_account (gs : List Account) (address balance : Nat) (code : List Nat) :
    Account × List Account :=
  (⟨address, balance, 0, code, []⟩, gs ++ [⟨address, balance, 0, code, []⟩])

/-! ## samples/sum/main.cpp : main -/

/-- What `main` writes to `std::cout`, one constructor for every output statement of
`main` and `usage`, holding the values the text is formatted from: the usage line with
the program name and the line under it, `Calculating a + b`, `Address to contains the
following bytecode`, `Executing a transaction from sender to to`, `Unexpected return
code`, `Execution completed, and returned a result of n bytes`, and `a + b = result`. -/
inductive Printed where
  | usage_line : List Char → Printed
  | usage_help : Printed
  | calculating : List Char → List Char → Printed
  | contains_bytecode : Nat → List Nat → Printed
  | executing : Nat → Nat → Printed
  | unexpected_return_code : ExitReason → Printed
  | execution_completed : Nat → Printed
  | sum_line : List Char → List Char → List Char → Printed
  deriving DecidableEq

/-- `usage(bin_name)`: the two lines are printed and 1 is returned. -/
def usage (bin_name : List Char) : Int × List Printed :=
  (1, [Printed.usage_line bin_name, Printed.usage_help])

/-- What `main` takes from its surroundings: the byte order of the machine and the
addresses the code vector's storage has in the two calls of `push_uint256`, the values
the calls of `rand()` return, and the two functions of the library that are not among
the sources, as functions of their arguments: `eevm::generate_address(sender, nonce)`
and `Processor::run` on the caller, the target account, the input and its fifth
argument. -/
structure Host where
  hostBig : Bool
  addr_a : Nat
  addr_b : Nat
  rand : Nat → Nat
  generate_address : Nat → Nat → Nat
  run : Nat → Account → List Nat → Nat → ExecResult

/-- The head of `main`, "Validate args, read verbose option", on the vector `argv` of
`argc = argv.length` strings: `none` on the two paths that `return usage(argv[0])`,
otherwise the values of `verbose` and `first_arg`. -/
def validate_args (argv : List (List Char)) : Option (Bool × Nat) :=
  if argv.length < 3 ∨ argv.length > 4 then none
  else if argv.length = 4 then
    if argv.getD 1 [] ≠ "-v".toList then none else some (true, 2)
  else some (false, 1)

/-- The function `main` of the sample on `argv = bin_name :: args` (a hosted program has
`argc ≥ 1`): the exit code it returns and what it has printed; `none` when an exception
leaves `from_hex_str`, which `main` does not catch. The variable `to` of the source is
`to_` here. -/
def main (host : Host) (bin_name : List Char) (args : List (List Char)) :
    Option (Int × List Printed) :=
  match validate_args (bin_name :: args) with
  | none => some (usage bin_name)
  | some (verbose, first_arg) =>
    match from_hex_str ((bin_name :: args).getD first_arg []),
      from_hex_str ((bin_name :: args).getD (first_arg + 1) []) with
    | some arg_a, some arg_b =>
      let out1 : List Printed :=
        if verbose then [Printed.calculating (to_lower_hex_str arg_a) (to_lower_hex_str arg_b)]
        else []
      let sender := sender host.rand
      let to_ := host.generate_address sender 0
      let code := create_a_plus_b_bytecode host.hostBig host.addr_a host.addr_b arg_a arg_b
      let contract := (create_account [] to_ 0 code).1
      let out2 := if verbose then out1 ++ [Printed.contains_bytecode to_ contract.code] else out1
      let out3 := if verbose then out2 ++ [Printed.executing sender to_] else out2
      let e := host.run sender contract [] 0
      if e.er ≠ ExitReason.returned then
        some (2, out3 ++ [Printed.unexpected_return_code e.er])
      else
        let out4 :=
          if verbose then out3 ++ [Printed.execution_completed e.output.length] else out3
        let result := from_big_endian e.output
        some (0, out4 ++ [Printed.sum_line (to_lower_hex_str arg_a) (to_lower_hex_str arg_b)
          (to_lower_hex_str result)])
    | _, _ => none

/-- The value `e` of `main` for the parsed operands `arg_a` and `arg_b`: the result of
`p.run(tx, sender, contract, {}, 0, &tr)` on the random sender and the account created
for the summing bytecode. -/
def main_execution (host : Host) (arg_a arg_b : Nat) : ExecResult :=
  host.run (sender host.rand)
    (create_account [] (host.generate_address (sender host.rand) 0) 0
      (create_a_plus_b_bytecode host.hostBig host.addr_a host.addr_b arg_a arg_b)).1 [] 0

/-! ## Serialisation lemmas -/

theorem and_mask8 (v : Nat) : (v &&& mask8) % 2 ^ 8 = v % 256 := by
  have h : mask8 = 2 ^ 8 - 1 := by decide
  rw [h, Nat.and_pow_two_sub_one_eq_mod]
  simp

theorem and_mask64 (v : Nat) : (v &&& mask64) % 2 ^ 64 = v % 2 ^ 64 := by
  have h : mask64 = 2 ^ 64 - 1 := by decide
  rw [h, Nat.and_pow_two_sub_one_eq_mod]
  simp

/-- Byte `k` of the low 64 bits of `v` is byte `k` of `v`. -/
theorem byte_of_low64 (v s : Nat) (hs : s + 8 ≤ 64) :
    ((v % 2 ^ 64) >>> s) % 256 = (v >>> s) % 256 := by
  obtain ⟨t, ht⟩ : ∃ t, 64 = s + t := ⟨64 - s, by omega⟩
  have h8 : (256 : Nat) ∣ 2 ^ t := by
    have : (256 : Nat) = 2 ^ 8 := by norm_num
    rw [this]
    exact Nat.pow_dvd_pow 2 (by omega)
  rw [Nat.shiftRight_eq_div_pow, Nat.shiftRight_eq_div_pow, ht, Nat.pow_add,
    Nat.mod_mul_right_div_self, Nat.mod_mod_of_dvd _ h8]

/-- What `to_big_endian_loop8` leaves in the buffer. -/
theorem to_big_endian_loop8_spec : ∀ (c v : Nat) (mem : List Nat) (off : Nat),
    off + c ≤ mem.length →
    (to_big_endian_loop8 c v mem off).length = mem.length ∧
    (∀ j, j < c →
      (to_big_endian_loop8 c v mem off)[off + j]? = some ((v >>> (8 * (c - 1 - j))) % 256)) ∧
    (∀ p, (p < off ∨ off + c ≤ p) → (to_big_endian_loop8 c v mem off)[p]? = mem[p]?) := by
  intro c
  induction c with
  | zero =>
    intro v mem off _
    refine ⟨rfl, ?_, ?_⟩
    · intro j hj; omega
    · intro p _; rfl
  | succ i ih =>
    intro v mem off hlen
    have hlen' : off + i ≤ (mem.set (off + i) (native_to_big8 ((v &&& mask8) % 2 ^ 8))).length := by
      rw [List.length_set]; omega
    obtain ⟨h1, h2, h3⟩ := ih (v >>> 8) (mem.set (off + i) (native_to_big8 ((v &&& mask8) % 2 ^ 8))) off hlen'
    simp only [to_big_endian_loop8]
    refine ⟨?_, ?_, ?_⟩
    · rw [h1, List.length_set]
    · intro j hj
      by_cases hji : j < i
      · rw [h2 j hji, ← Nat.shiftRight_add]
        have : 8 + 8 * (i - 1 - j) = 8 * (i + 1 - 1 - j) := by omega
        rw [this]
      · have hj' : j = i := by omega
        subst hj'
        rw [h3 (off + j) (Or.inr (le_refl _)), List.getElem?_set_self (by omega)]
        simp only [native_to_big8, and_mask8]
        simp
    · intro p hp
      rw [h3 p (by omega), List.getElem?_set_ne (by omega)]


theorem reversed_bytes (b0 b1 b2 b3 b4 b5 b6 b7 : Nat) (h0 : b0 < 256) (h1 : b1 < 256)
    (h2 : b2 < 256) (h3 : b3 < 256) (h4 : b4 < 256) (h5 : b5 < 256) (h6 : b6 < 256)
    (h7 : b7 < 256) (x : Nat)
    (hx : x = b0 * 2 ^ 56 + b1 * 2 ^ 48 + b2 * 2 ^ 40 + b3 * 2 ^ 32 + b4 * 2 ^ 24 + b5 * 2 ^ 16 +
      b6 * 2 ^ 8 + b7 * 2 ^ 0) :
    x / 2 ^ 0 % 256 = b7 ∧ x / 2 ^ 8 % 256 = b6 ∧ x / 2 ^ 16 % 256 = b5 ∧
    x / 2 ^ 24 % 256 = b4 ∧ x / 2 ^ 32 % 256 = b3 ∧ x / 2 ^ 40 % 256 = b2 ∧
    x / 2 ^ 48 % 256 = b1 ∧ x / 2 ^ 56 % 256 = b0 := by
  norm_num at hx ⊢
  subst hx
  refine ⟨?_, ?_, ?_, ?_, ?_, ?_, ?_, ?_⟩ <;> omega

theorem stored_byte64_native_to_big (hostBig : Bool) (n k : Nat) (hk : k < 8) :
    stored_byte64 hostBig (native_to_big64 hostBig n) k = (n >>> (8 * (7 - k))) % 256 := by
  cases hostBig
  · have h := reversed_bytes (n / 2 ^ 0 % 256) (n / 2 ^ 8 % 256) (n / 2 ^ 16 % 256)
      (n / 2 ^ 24 % 256) (n / 2 ^ 32 % 256) (n / 2 ^ 40 % 256) (n / 2 ^ 48 % 256)
      (n / 2 ^ 56 % 256) (Nat.mod_lt _ (by norm_num)) (Nat.mod_lt _ (by norm_num))
      (Nat.mod_lt _ (by norm_num)) (Nat.mod_lt _ (by norm_num)) (Nat.mod_lt _ (by norm_num))
      (Nat.mod_lt _ (by norm_num)) (Nat.mod_lt _ (by norm_num)) (Nat.mod_lt _ (by norm_num))
      (endian_reverse64 n) (by simp only [endian_reverse64, Nat.shiftRight_eq_div_pow, Nat.shiftLeft_eq])
    obtain ⟨e0, e1, e2, e3, e4, e5, e6, e7⟩ := h
    simp only [stored_byte64, native_to_big64, Nat.shiftRight_eq_div_pow,
      Bool.false_eq_true, if_false]
    interval_cases k
    · exact e0
    · exact e1
    · exact e2
    · exact e3
    · exact e4
    · exact e5
    · exact e6
    · exact e7
  · simp [stored_byte64, native_to_big64]

theorem store64_length (hostBig : Bool) (mem : List Nat) (p x : Nat) :
    (store64 hostBig mem p x).length = mem.length := by
  simp [store64, List.range, List.range.loop]

theorem store64_getElem? (hostBig : Bool) (mem : List Nat) (p x q : Nat)
    (hp : p + 8 ≤ mem.length) :
    (store64 hostBig mem p x)[q]? =
      if p ≤ q ∧ q < p + 8 then some (stored_byte64 hostBig x (q - p)) else mem[q]? := by
  simp only [store64, List.range, List.range.loop, List.foldl]
  by_cases h : p ≤ q ∧ q < p + 8
  · obtain ⟨k, rfl⟩ : ∃ k, q = p + k := ⟨q - p, by omega⟩
    have hk : k < 8 := by omega
    rw [if_pos h]
    interval_cases k <;>
      simp [List.getElem?_set, List.length_set] <;> omega
  · rw [if_neg h]
    have hq : ∀ k, k < 8 → p + k ≠ q := by intro k hk; omega
    simp only [List.getElem?_set_ne (hq _ (by norm_num : (0:Nat) < 8)),
      List.getElem?_set_ne (hq _ (by norm_num : (1:Nat) < 8)),
      List.getElem?_set_ne (hq _ (by norm_num : (2:Nat) < 8)),
      List.getElem?_set_ne (hq _ (by norm_num : (3:Nat) < 8)),
      List.getElem?_set_ne (hq _ (by norm_num : (4:Nat) < 8)),
      List.getElem?_set_ne (hq _ (by norm_num : (5:Nat) < 8)),
      List.getElem?_set_ne (hq _ (by norm_num : (6:Nat) < 8)),
      List.getElem?_set_ne (hq _ (by norm_num : (7:Nat) < 8))]


/-- What `to_big_endian_loop64` leaves in the buffer, on either kind of host. -/
theorem to_big_endian_loop64_spec (hostBig : Bool) : ∀ (c v : Nat) (mem : List Nat) (off : Nat),
    off + 8 * c ≤ mem.length →
    (to_big_endian_loop64 hostBig c v mem off).length = mem.length ∧
    (∀ j, j < 8 * c →
      (to_big_endian_loop64 hostBig c v mem off)[off + j]? =
        some ((v >>> (8 * (8 * c - 1 - j))) % 256)) ∧
    (∀ p, (p < off ∨ off + 8 * c ≤ p) →
      (to_big_endian_loop64 hostBig c v mem off)[p]? = mem[p]?) := by
  intro c
  induction c with
  | zero =>
    intro v mem off _
    refine ⟨rfl, ?_, ?_⟩
    · intro j hj; omega
    · intro p _; rfl
  | succ i ih =>
    intro v mem off hlen
    have hst : off + 8 * i + 8 ≤ mem.length := by omega
    have hlen' : off + 8 * i ≤
        (store64 hostBig mem (off + 8 * i) (native_to_big64 hostBig ((v &&& mask64) % 2 ^ 64))).length := by
      rw [store64_length]; omega
    obtain ⟨h1, h2, h3⟩ := ih (v >>> 64)
      (store64 hostBig mem (off + 8 * i) (native_to_big64 hostBig ((v &&& mask64) % 2 ^ 64))) off hlen'
    simp only [to_big_endian_loop64]
    refine ⟨?_, ?_, ?_⟩
    · rw [h1, store64_length]
    · intro j hj
      by_cases hji : j < 8 * i
      · rw [h2 j hji, ← Nat.shiftRight_add]
        have : 64 + 8 * (8 * i - 1 - j) = 8 * (8 * (i + 1) - 1 - j) := by omega
        rw [this]
      · rw [h3 (off + j) (Or.inr (by omega)), store64_getElem? _ _ _ _ _ hst,
          if_pos (by omega), stored_byte64_native_to_big _ _ _ (by omega), and_mask64,
          byte_of_low64 _ _ (by omega)]
        have : 8 * (7 - (off + j - (off + 8 * i))) = 8 * (8 * (i + 1) - 1 - j) := by omega
        rw [this]
    · intro p hp
      rw [h3 p (by omega), store64_getElem? _ _ _ _ _ hst, if_neg (by omega)]

/-- What `to_big_endian` leaves in the buffer, in either branch and on either host. -/
theorem to_big_endian_spec (hostBig : Bool) (base v : Nat) (mem : List Nat)
    (off : Nat) (hroom : off + 32 ≤ mem.length) :
    (to_big_endian hostBig base v mem off).length = mem.length ∧
    (∀ i, i < 32 →
      (to_big_endian hostBig base v mem off)[off + i]? = some ((v >>> (8 * (31 - i))) % 256)) ∧
    (∀ p, (p < off ∨ off + 32 ≤ p) → (to_big_endian hostBig base v mem off)[p]? = mem[p]?) := by
  unfold to_big_endian
  split
  · exact to_big_endian_loop64_spec hostBig 4 v mem off (by omega)
  · exact to_big_endian_loop8_spec 32 v mem off hroom


theorem be_sum_eq_sum : ∀ bytes : List Nat,
    be_sum bytes =
      ∑ i ∈ Finset.range bytes.length, bytes.getD i 0 * 256 ^ (bytes.length - 1 - i) := by
  intro bytes
  induction bytes with
  | nil => simp [be_sum]
  | cons b rest ih =>
    rw [List.length_cons, Finset.sum_range_succ', be_sum, ih, Nat.add_comm]
    congr 1
    apply Finset.sum_congr rfl
    intro i _
    have : rest.length + 1 - 1 - (i + 1) = rest.length - 1 - i := by omega
    rw [this, List.getD_cons_succ]

theorem be_sum_lt : ∀ bytes : List Nat, (∀ b ∈ bytes, b < 256) →
    be_sum bytes < 2 ^ (8 * bytes.length) := by
  intro bytes
  induction bytes with
  | nil => intro _; simp [be_sum]
  | cons b rest ih =>
    intro h
    have hb : b < 256 := h b (List.mem_cons_self _ _)
    have hr := ih (fun x hx => h x (List.mem_cons_of_mem _ hx))
    have e1 : (256 : Nat) ^ rest.length = 2 ^ (8 * rest.length) := by
      rw [Nat.pow_mul]
    have e2 : (2 : Nat) ^ (8 * (rest.length + 1)) = 256 * 2 ^ (8 * rest.length) := by
      rw [Nat.mul_add, Nat.pow_add, Nat.mul_comm]
    rw [be_sum, List.length_cons, e1, e2]
    nlinarith

theorem be_sum_replicate_zero (k : Nat) (bytes : List Nat) :
    be_sum (List.replicate k 0 ++ bytes) = be_sum bytes := by
  induction k with
  | zero => simp
  | succ k ih => simp [List.replicate_succ, be_sum, ih]

/-- The import loop adds the value of the bytes read to an accumulator whose low bits
are still clear, as long as no chunk is dropped. -/
theorem import_bits_loop_eq : ∀ (bytes : List Nat) (a : Nat), bytes.length ≤ 32 →
    (∀ b ∈ bytes, b < 256) →
    import_bits_loop (2 ^ (8 * bytes.length) * a) bytes =
      2 ^ (8 * bytes.length) * a + be_sum bytes := by
  intro bytes
  induction bytes with
  | nil => intro a _ _; simp [import_bits_loop, be_sum]
  | cons b rest ih =>
    intro a hlen h
    have hb : b < 256 := h b (List.mem_cons_self _ _)
    have hlen' : rest.length ≤ 31 := by simpa using hlen
    have hloc : 8 * rest.length / 64 < 4 := by omega
    have hmask : b &&& 0xff = b := by
      have : (0xff : Nat) = 2 ^ 8 - 1 := by norm_num
      rw [this, Nat.and_pow_two_sub_one_eq_mod]
      exact Nat.mod_eq_of_lt (by simpa using hb)
    have hlt : b * 2 ^ (8 * rest.length) < 2 ^ (8 * rest.length + 8) := by
      rw [Nat.pow_add]
      have : 0 < 2 ^ (8 * rest.length) := Nat.pow_pos (by norm_num)
      nlinarith
    have hsplit : 2 ^ (8 * (rest.length + 1)) * a = 2 ^ (8 * rest.length + 8) * a := by
      rw [Nat.mul_add]
    have e1 : (256 : Nat) ^ rest.length = 2 ^ (8 * rest.length) := by
      rw [Nat.pow_mul]
    rw [import_bits_loop, assign_bits, if_pos hloc, hmask, Nat.shiftLeft_eq, List.length_cons,
      hsplit, ← Nat.mul_add_lt_is_or hlt, be_sum, e1]
    have hfac : 2 ^ (8 * rest.length + 8) * a + b * 2 ^ (8 * rest.length) =
        2 ^ (8 * rest.length) * (256 * a + b) := by
      rw [Nat.pow_add]; ring
    rw [hfac, ih (256 * a + b) (by omega) (fun x hx => h x (List.mem_cons_of_mem _ hx))]
    ring

theorem from_big_endian_eq_be_sum (bytes : List Nat) (hlen : bytes.length ≤ 32)
    (hbytes : ∀ b ∈ bytes, b < 256) : from_big_endian bytes = be_sum bytes := by
  have h := import_bits_loop_eq bytes 0 hlen hbytes
  simpa [from_big_endian] using h

/-- Bytes in front of the last 32 fall outside the four limbs and are dropped. -/
theorem import_bits_loop_long : ∀ (hi lo : List Nat), lo.length = 32 →
    (∀ b ∈ lo, b < 256) → import_bits_loop 0 (hi ++ lo) = be_sum lo := by
  intro hi
  induction hi with
  | nil =>
    intro lo hlo hb
    have h := import_bits_loop_eq lo 0 (by omega) hb
    simpa using h
  | cons b rest ih =>
    intro lo hlo hb
    have hloc : ¬ (8 * (rest ++ lo).length / 64 < 4) := by
      rw [List.length_append, hlo]; omega
    rw [List.cons_append, import_bits_loop, assign_bits, if_neg hloc]
    exact ih lo hlo hb

/-! ## Hexadecimal text lemmas -/

theorem hex_val_hex_char (d : Nat) (h : d < 16) : hex_val (hex_char d) = some d := by
  interval_cases d <;> decide

theorem hex_char_facts (d : Nat) (h : d < 16) :
    tolower (hex_char d) = hex_char d ∧ isspace (hex_char d) = false ∧
    hex_permitted.contains (hex_char d) = true ∧
    ((hex_char d == '0') = true ↔ d = 0) := by
  interval_cases d <;> decide

theorem nibbles_length : ∀ (n t : Nat), (nibbles n t).length = n := by
  intro n
  induction n with
  | zero => intro t; rfl
  | succ n ih => intro t; simp [nibbles, ih]

theorem nibbles_lt : ∀ (n t : Nat), ∀ d ∈ nibbles n t, d < 16 := by
  intro n
  induction n with
  | zero => intro t d hd; simp [nibbles] at hd
  | succ n ih =>
    intro t d hd
    simp only [nibbles, List.mem_append, List.mem_singleton] at hd
    rcases hd with hd | hd
    · exact ih _ d hd
    · rw [hd]; exact Nat.mod_lt _ (by norm_num)

theorem hex_fill_eq : ∀ (n t : Nat) (acc : List Char),
    hex_fill n t acc = (nibbles n t).map hex_char ++ acc := by
  intro n
  induction n with
  | zero => intro t acc; rfl
  | succ n ih =>
    intro t acc
    have hmask : t &&& 15 = t % 16 := by
      have : (15 : Nat) = 2 ^ 4 - 1 := by norm_num
      rw [this, Nat.and_pow_two_sub_one_eq_mod]
    simp [hex_fill, nibbles, ih, hmask]

theorem digits_value_append_singleton : ∀ (ds : List Nat) (d : Nat),
    digits_value (ds ++ [d]) = digits_value ds * 16 + d := by
  intro ds
  induction ds with
  | nil => intro d; simp [digits_value]
  | cons x rest ih =>
    intro d
    rw [List.cons_append, digits_value, digits_value, ih, List.length_append,
      List.length_singleton, Nat.pow_succ]
    ring

theorem digits_value_nibbles : ∀ (n t : Nat), digits_value (nibbles n t) = t % 16 ^ n := by
  intro n
  induction n with
  | zero => intro t; simp [nibbles, digits_value, Nat.mod_one]
  | succ n ih =>
    intro t
    have h4 : t >>> 4 = t / 16 := by
      rw [Nat.shiftRight_eq_div_pow]
    have hm : t % (16 * 16 ^ n) = t % 16 + 16 * (t / 16 % 16 ^ n) := Nat.mod_mul
    rw [nibbles, digits_value_append_singleton, ih, h4, Nat.pow_succ,
      Nat.mul_comm (16 ^ n) 16, hm]
    ring

theorem digits_value_dropWhile_zero : ∀ ds : List Nat,
    digits_value (ds.dropWhile (fun d => d == 0)) = digits_value ds := by
  intro ds
  induction ds with
  | nil => rfl
  | cons d rest ih =>
    by_cases hd : d = 0
    · subst hd
      simp [List.dropWhile, digits_value, ih]
    · have : (d == 0) = false := by simpa using hd
      simp [List.dropWhile, this]

theorem dropWhile_zero_map_hex_char : ∀ ds : List Nat, (∀ d ∈ ds, d < 16) →
    (ds.map hex_char).dropWhile (fun c => c == '0') =
      (ds.dropWhile (fun d => d == 0)).map hex_char := by
  intro ds
  induction ds with
  | nil => intro _; rfl
  | cons d rest ih =>
    intro h
    have hd := (hex_char_facts d (h d (List.mem_cons_self _ _))).2.2.2
    by_cases hz : d = 0
    · subst hz
      have h0 : (hex_char 0 == '0') = true := by decide
      simp only [List.map_cons, List.dropWhile_cons, h0, if_true, beq_self_eq_true]
      exact ih (fun x hx => h x (List.mem_cons_of_mem _ hx))
    · have h1 : (hex_char d == '0') = false := by
        cases hc : (hex_char d == '0')
        · rfl
        · exact absurd (hd.mp hc) hz
      have h2 : (d == 0) = false := by simpa using hz
      simp only [List.map_cons, List.dropWhile_cons, h1, h2, Bool.false_eq_true, if_false,
        List.map_cons]

/-- The digit loop reads a digit sequence into an accumulator whose low bits are clear. -/
theorem parse_hex_loop_eq : ∀ (ds : List Nat) (a : Nat), ds.length ≤ 64 →
    (∀ d ∈ ds, d < 16) →
    parse_hex_loop (2 ^ (4 * ds.length) * a) (ds.map hex_char) =
      some (2 ^ (4 * ds.length) * a + digits_value ds) := by
  intro ds
  induction ds with
  | nil => intro a _ _; simp [parse_hex_loop, digits_value]
  | cons d rest ih =>
    intro a hlen h
    have hd : d < 16 := h d (List.mem_cons_self _ _)
    have hlen' : rest.length ≤ 63 := by simpa using hlen
    have hloc : 4 * rest.length / 64 < 4 := by omega
    have hlt : d * 2 ^ (4 * rest.length) < 2 ^ (4 * rest.length + 4) := by
      rw [Nat.pow_add]
      have : 0 < 2 ^ (4 * rest.length) := Nat.pow_pos (by norm_num)
      nlinarith
    have hsplit : 2 ^ (4 * (rest.length + 1)) * a = 2 ^ (4 * rest.length + 4) * a := by
      rw [Nat.mul_add]
    have e1 : (16 : Nat) ^ rest.length = 2 ^ (4 * rest.length) := by
      rw [Nat.pow_mul]
    have hfac : 2 ^ (4 * rest.length + 4) * a + d * 2 ^ (4 * rest.length) =
        2 ^ (4 * rest.length) * (16 * a + d) := by
      rw [Nat.pow_add]; ring
    rw [List.map_cons, parse_hex_loop, hex_val_hex_char d hd]
    simp only [List.length_map, if_pos hloc]
    rw [Nat.shiftLeft_eq, List.length_cons, hsplit, ← Nat.mul_add_lt_is_or hlt, digits_value, e1,
      hfac, ih (16 * a + d) (by omega) (fun x hx => h x (List.mem_cons_of_mem _ hx))]
    congr 1
    ring

theorem dropWhile_erase_leading_zeros (s : List Char) :
    (erase_leading_zeros s).dropWhile (fun c => c == '0') =
      s.dropWhile (fun c => c == '0') := by
  unfold erase_leading_zeros
  split
  · rename_i heq
    rw [heq]
    rw [List.dropWhile_eq_nil_iff] at heq ⊢
    intro x hx
    exact heq x (List.mem_of_mem_drop hx)
  · rename_i c r heq
    rw [heq, ← heq, List.dropWhile_idempotent]

theorem mem_erase_leading_zeros (s : List Char) (c : Char)
    (hc : c ∈ erase_leading_zeros s) : c ∈ s := by
  unfold erase_leading_zeros at hc
  split at hc
  · exact List.mem_of_mem_drop hc
  · rename_i c' r heq
    rw [← heq] at hc
    exact (List.dropWhile_sublist _).subset hc

theorem limbs_in_use_covers (v : Nat) (hv : v < UINT256_MOD) :
    limbs_in_use v * 64 / 4 ≤ 64 ∧ v < 16 ^ (limbs_in_use v * 64 / 4) := by
  unfold UINT256_MOD at hv
  unfold limbs_in_use
  split
  · exact ⟨by norm_num, by norm_num; omega⟩
  · split
    · exact ⟨by norm_num, by norm_num; omega⟩
    · split
      · exact ⟨by norm_num, by norm_num; omega⟩
      · exact ⟨by norm_num, by norm_num; omega⟩

/-- Reading back what the hexadecimal output wrote gives the 256-bit word. -/
theorem parse_hex_uint256_hex (v : Nat) (hv : v < UINT256_MOD) :
    parse_hex (uint256_hex v) = some v := by
  obtain ⟨hn, hcov⟩ := limbs_in_use_covers v hv
  unfold uint256_hex
  generalize limbs_in_use v * 64 / 4 = n at hn hcov
  have hlt := nibbles_lt n v
  have hdl : ((nibbles n v).dropWhile (fun d => d == 0)).length ≤ 64 := by
    have := (List.dropWhile_sublist (fun d => d == 0) (l := nibbles n v)).length_le
    rw [nibbles_length] at this
    omega
  have hdlt : ∀ d ∈ (nibbles n v).dropWhile (fun d => d == 0), d < 16 :=
    fun d hd => hlt d ((List.dropWhile_sublist _).subset hd)
  have h := parse_hex_loop_eq _ 0 hdl hdlt
  have hval : v % 16 ^ n = v := Nat.mod_eq_of_lt hcov
  unfold parse_hex
  rw [dropWhile_erase_leading_zeros, hex_fill_eq, List.append_nil,
    dropWhile_zero_map_hex_char _ hlt]
  rw [digits_value_dropWhile_zero, digits_value_nibbles, hval] at h
  simpa using h

theorem uint256_hex_chars (v : Nat) (c : Char) (hc : c ∈ uint256_hex v) :
    ∃ d, d < 16 ∧ c = hex_char d := by
  have hc' := mem_erase_leading_zeros _ c hc
  rw [hex_fill_eq, List.append_nil, List.mem_map] at hc'
  obtain ⟨d, hd, rfl⟩ := hc'
  exact ⟨d, nibbles_lt _ v d hd, rfl⟩

theorem to_lower_hex_str_eq (v : Nat) : to_lower_hex_str v = to_hex_str v := by
  unfold to_lower_hex_str to_hex_str
  rw [List.map_append]
  congr 1
  conv_rhs => rw [← List.map_id (uint256_hex v)]
  apply List.map_congr_left
  intro c hc
  obtain ⟨d, hd, rfl⟩ := uint256_hex_chars v c hc
  exact (hex_char_facts d hd).1

/-- `from_hex_str` reads back what `to_hex_str` wrote. -/
theorem from_hex_str_to_hex_str (v : Nat) (hv : v < UINT256_MOD) :
    from_hex_str (to_hex_str v) = some v := by
  have htok : read_string_while (to_hex_str v) = '0' :: 'x' :: uint256_hex v := by
    unfold read_string_while to_hex_str
    have h1 : ("0x".toList ++ uint256_hex v).dropWhile isspace = '0' :: 'x' :: uint256_hex v := by
      rfl
    rw [h1, List.takeWhile_eq_self_iff]
    intro c hc
    simp only [List.mem_cons] at hc
    rcases hc with rfl | rfl | hc
    · decide
    · decide
    · obtain ⟨d, hd, rfl⟩ := uint256_hex_chars v c hc
      exact (hex_char_facts d hd).2.2.1
  unfold from_hex_str
  rw [htok]
  simp only [with_hex_base, Option.some_bind, assign_string]
  exact parse_hex_uint256_hex v hv

theorem from_hex_str_to_lower_hex_str (v : Nat) (hv : v < UINT256_MOD) :
    from_hex_str (to_lower_hex_str v) = some v := by
  rw [to_lower_hex_str_eq]
  exact from_hex_str_to_hex_str v hv

/-! ## JSON and log entry lemmas -/

theorem lookup_set_field_self : ∀ (fields : List (String × Json)) (key : String) (value : Json),
    (set_field fields key value).lookup key = some value := by
  intro fields
  induction fields with
  | nil => intro key value; simp [set_field, List.lookup]
  | cons f rest ih =>
    intro key value
    obtain ⟨k, v⟩ := f
    by_cases h : k = key
    · subst h; simp [set_field, List.lookup]
    · have h1 : (k == key) = false := by simpa using h
      have h2 : (key == k) = false := by simpa using fun hh => h hh.symm
      simp [set_field, List.lookup, h1, h2, ih]

theorem lookup_set_field_other : ∀ (fields : List (String × Json)) (key key' : String)
    (value : Json), key ≠ key' →
    (set_field fields key value).lookup key' = fields.lookup key' := by
  intro fields
  induction fields with
  | nil =>
    intro key key' value h
    have h2 : (key' == key) = false := by simpa using fun hh => h hh.symm
    simp [set_field, List.lookup, h2]
  | cons f rest ih =>
    intro key key' value h
    obtain ⟨k, v⟩ := f
    have h2 : (key' == key) = false := by simpa using fun hh => h hh.symm
    by_cases hk : k = key
    · subst hk; simp [set_field, List.lookup, h2]
    · have h1 : (k == key) = false := by simpa using hk
      simp only [set_field, h1, Bool.false_eq_true, if_false, List.lookup]
      cases hkk : (key' == k)
      · exact ih key key' value h
      · rfl

theorem vector_eq_iff : ∀ (a b : List Nat), vector_eq a b = true ↔ a = b := by
  intro a
  induction a with
  | nil =>
    intro b
    cases b with
    | nil => simp [vector_eq]
    | cons y ys => simp [vector_eq]
  | cons x xs ih =>
    intro b
    cases b with
    | nil => simp [vector_eq]
    | cons y ys =>
      have := ih ys
      simp only [vector_eq, Bool.and_eq_true, beq_iff_eq] at this
      simp only [vector_eq, List.length_cons, List.zipWith_cons_cons, List.all_cons, id,
        Bool.and_eq_true, beq_iff_eq, List.cons.injEq, Nat.add_right_cancel_iff]
      constructor
      · rintro ⟨hl, hxy, hall⟩
        exact ⟨hxy, this.mp ⟨hl, hall⟩⟩
      · rintro ⟨hxy, hrest⟩
        have := this.mpr hrest
        exact ⟨this.1, hxy, this.2⟩

theorem operator_eq_iff (a b : LogEntry) : a.operator_eq b = true ↔ a = b := by
  obtain ⟨a1, a2, a3⟩ := a
  obtain ⟨b1, b2, b3⟩ := b
  simp [LogEntry.operator_eq, vector_eq_iff, and_assoc]

theorem to_bytes_to_hex_string : ∀ data : List Nat, (∀ b ∈ data, b < 256) →
    to_bytes (to_hex_string data) = some data := by
  intro data
  induction data with
  | nil => intro _; rfl
  | cons b rest ih =>
    intro h
    have hb : b < 256 := h b (List.mem_cons_self _ _)
    have h1 : hex_val (hex_char (b / 16 % 16)) = some (b / 16 % 16) :=
      hex_val_hex_char _ (Nat.mod_lt _ (by norm_num))
    have h2 : hex_val (hex_char (b % 16)) = some (b % 16) :=
      hex_val_hex_char _ (Nat.mod_lt _ (by norm_num))
    have hval : 16 * (b / 16 % 16) + b % 16 = b := by omega
    simp only [to_hex_string, to_bytes, h1, h2, ih (fun x hx => h x (List.mem_cons_of_mem _ hx)),
      hval]

theorem to_hex_string_length : ∀ data : List Nat,
    (to_hex_string data).length = 2 * data.length := by
  intro data
  induction data with
  | nil => rfl
  | cons b rest ih => simp only [to_hex_string, List.length_cons, ih]; omega

theorem to_hex_string_getElem? : ∀ (data : List Nat) (i b : Nat), data[i]? = some b →
    (to_hex_string data)[2 * i]? = some (hex_char (b / 16 % 16)) ∧
    (to_hex_string data)[2 * i + 1]? = some (hex_char (b % 16)) := by
  intro data
  induction data with
  | nil => intro i b h; simp at h
  | cons x rest ih =>
    intro i b h
    cases i with
    | zero =>
      simp only [List.getElem?_cons_zero, Option.some.injEq] at h
      subst h
      simp [to_hex_string]
    | succ i =>
      simp only [List.getElem?_cons_succ] at h
      have := ih i b h
      have e1 : 2 * (i + 1) = (2 * i + 1) + 1 := by ring
      rw [e1]
      simpa [to_hex_string] using this

theorem vector_from_json_items_round_trip : ∀ topics : List Nat,
    (∀ t ∈ topics, t < UINT256_MOD) →
    vector_from_json_items (topics.map multiprecision.to_json) = some topics := by
  intro topics
  induction topics with
  | nil => intro _; rfl
  | cons t rest ih =>
    intro h
    have ht : multiprecision.from_json (multiprecision.to_json t) = some t := by
      simp only [multiprecision.from_json, multiprecision.to_json, Json.get_string,
        Option.some_bind]
      exact from_hex_str_to_lower_hex_str t (h t (List.mem_cons_self _ _))
    simp only [List.map_cons, vector_from_json_items, ht,
      ih (fun x hx => h x (List.mem_cons_of_mem _ hx))]

theorem vector_from_json_items_length : ∀ (items : List Json) (topics : List Nat),
    vector_from_json_items items = some topics → topics.length = items.length := by
  intro items
  induction items with
  | nil =>
    intro topics h
    simp only [vector_from_json_items, Option.some.injEq] at h
    subst h; rfl
  | cons j rest ih =>
    intro topics h
    simp only [vector_from_json_items] at h
    split at h
    · rename_i v vs _ hvs
      simp only [Option.some.injEq] at h
      subst h
      simp [ih vs hvs]
    · exact absurd h (by simp)

/-- What `to_json` leaves in a `null` value. -/
theorem to_json_null (e : LogEntry) :
    to_json Json.null e = some (Json.object [
      ("address", Json.string (to_lower_hex_str e.address)),
      ("data", Json.string (to_hex_string e.data)),
      ("topics", Json.array (e.topics.map (fun t => Json.string (to_lower_hex_str t))))]) := by
  have h1 : ("address" == "data") = false := by decide
  have h2 : ("address" == "topics") = false := by decide
  have h3 : ("data" == "topics") = false := by decide
  simp [to_json, Json.assign_key, set_field, h1, h2, h3, multiprecision.to_json, vector_to_json]

/-- Whatever value `to_json` starts from, `from_json` reads the entry back. -/
theorem from_json_to_json (e : LogEntry) (haddr : e.address < UINT256_MOD)
    (hdata : ∀ b ∈ e.data, b < 256) (htopics : ∀ t ∈ e.topics, t < UINT256_MOD)
    (j0 j : Json) (hj : to_json j0 e = some j) : from_json j = some e := by
  have key : ∀ fields : List (String × Json),
      from_json (Json.object (set_field (set_field (set_field fields "address"
        (multiprecision.to_json e.address)) "data" (Json.string (to_hex_string e.data)))
        "topics" (vector_to_json e.topics))) = some e := by
    intro fields
    have ha : (set_field (set_field (set_field fields "address"
        (multiprecision.to_json e.address)) "data" (Json.string (to_hex_string e.data)))
        "topics" (vector_to_json e.topics)).lookup "address" =
        some (multiprecision.to_json e.address) := by
      rw [lookup_set_field_other _ _ _ _ (by decide), lookup_set_field_other _ _ _ _ (by decide),
        lookup_set_field_self]
    have hd : (set_field (set_field (set_field fields "address"
        (multiprecision.to_json e.address)) "data" (Json.string (to_hex_string e.data)))
        "topics" (vector_to_json e.topics)).lookup "data" =
        some (Json.string (to_hex_string e.data)) := by
      rw [lookup_set_field_other _ _ _ _ (by decide), lookup_set_field_self]
    have ht := lookup_set_field_self (set_field (set_field fields "address"
        (multiprecision.to_json e.address)) "data" (Json.string (to_hex_string e.data)))
        "topics" (vector_to_json e.topics)
    have hA : multiprecision.from_json (multiprecision.to_json e.address) = some e.address := by
      simp only [multiprecision.from_json, multiprecision.to_json, Json.get_string,
        Option.some_bind]
      exact from_hex_str_to_lower_hex_str _ haddr
    have hT : vector_from_json (vector_to_json e.topics) = some e.topics := by
      simp only [vector_to_json, vector_from_json]
      exact vector_from_json_items_round_trip _ htopics
    unfold from_json
    simp only [Json.at_key]
    rw [ha, hd, ht]
    simp only [Option.some_bind, hA, Json.get_string, to_bytes_to_hex_string _ hdata, hT]
  cases j0 with
  | null =>
    simp only [to_json, Json.assign_key, Option.some_bind, Option.some.injEq] at hj
    subst hj
    exact key []
  | object fields =>
    simp only [to_json, Json.assign_key, Option.some_bind, Option.some.injEq] at hj
    subst hj
    exact key fields
  | string s => simp [to_json, Json.assign_key] at hj
  | array items => simp [to_json, Json.assign_key] at hj

theorem to_hex_string_chars : ∀ (data : List Nat),
    ∀ c ∈ to_hex_string data, c ∈ "0123456789abcdef".toList := by
  intro data
  induction data with
  | nil => intro c hc; simp [to_hex_string] at hc
  | cons b rest ih =>
    intro c hc
    have hchar : ∀ d, d < 16 → hex_char d ∈ "0123456789abcdef".toList := by
      intro d hd
      interval_cases d <;> decide
    simp only [to_hex_string, List.mem_cons] at hc
    rcases hc with rfl | rfl | hc
    · exact hchar _ (Nat.mod_lt _ (by norm_num))
    · exact hchar _ (Nat.mod_lt _ (by norm_num))
    · exact ih c hc

/-! ## The summing bytecode -/

theorem word_bytes_length (v : Nat) : (word_bytes v).length = 32 := by
  simp [word_bytes]

theorem word_bytes_getElem? (v i : Nat) (hi : i < 32) :
    (word_bytes v)[i]? = some ((v >>> (8 * (31 - i))) % 256) := by
  simp [word_bytes, List.getElem?_map, List.getElem?_range hi]

theorem word_bytes_lt (v : Nat) : ∀ b ∈ word_bytes v, b < 256 := by
  intro b hb
  simp only [word_bytes, List.mem_map] at hb
  obtain ⟨i, _, rfl⟩ := hb
  exact Nat.mod_lt _ (by norm_num)

theorem be_sum_range_map : ∀ (n v : Nat),
    be_sum ((List.range n).map (fun i => (v >>> (8 * (n - 1 - i))) % 256)) = v % 256 ^ n := by
  intro n
  induction n with
  | zero => intro v; simp [be_sum, Nat.mod_one]
  | succ n ih =>
    intro v
    have hpow : (256 : Nat) ^ n = 2 ^ (8 * n) := by rw [Nat.pow_mul]
    have htail : (List.range n).map (fun i => (v >>> (8 * (n + 1 - 1 - (i + 1)))) % 256) =
        (List.range n).map (fun i => (v >>> (8 * (n - 1 - i))) % 256) := by
      apply List.map_congr_left
      intro i _
      have : n + 1 - 1 - (i + 1) = n - 1 - i := by omega
      rw [this]
    rw [List.range_succ_eq_map, List.map_cons, List.map_map, be_sum]
    simp only [Function.comp_def, Nat.succ_eq_add_one, List.length_map, List.length_range]
    rw [htail, ih, Nat.mod_pow_succ, Nat.shiftRight_eq_div_pow, hpow]
    simp only [Nat.add_sub_cancel, Nat.sub_zero]
    ring

theorem from_big_endian_word_bytes (v : Nat) :
    from_big_endian (word_bytes v) = v % UINT256_MOD := by
  rw [from_big_endian_eq_be_sum _ (by rw [word_bytes_length]) (word_bytes_lt v)]
  have h := be_sum_range_map 32 v
  have hp : (256 : Nat) ^ 32 = UINT256_MOD := by unfold UINT256_MOD; norm_num
  rw [hp] at h
  exact h

/-- In list form: `to_big_endian` replaces the 32 bytes at the pointer by the encoding of
the word and keeps what is in front of them and behind them. -/
theorem to_big_endian_eq (hostBig : Bool) (base v : Nat) (pre old post : List Nat)
    (hold : old.length = 32) :
    to_big_endian hostBig base v (pre ++ old ++ post) pre.length =
      pre ++ word_bytes v ++ post := by
  have hroom : pre.length + 32 ≤ (pre ++ old ++ post).length := by
    simp only [List.length_append, hold]; omega
  obtain ⟨hlen, hin, hout⟩ := to_big_endian_spec hostBig base v (pre ++ old ++ post)
    pre.length hroom
  have hwl := word_bytes_length v
  apply List.ext_getElem?
  intro p
  by_cases h1 : p < pre.length
  · rw [hout p (Or.inl h1), List.append_assoc, List.append_assoc,
      List.getElem?_append_left h1, List.getElem?_append_left h1]
  · by_cases h2 : p < pre.length + 32
    · obtain ⟨i, rfl⟩ : ∃ i, p = pre.length + i := ⟨p - pre.length, by omega⟩
      have hi : i < 32 := by omega
      rw [hin i hi, List.append_assoc, List.getElem?_append_right (by omega),
        Nat.add_sub_cancel_left, List.getElem?_append_left (by omega),
        word_bytes_getElem? v i hi]
    · obtain ⟨k, rfl⟩ : ∃ k, p = pre.length + 32 + k := ⟨p - (pre.length + 32), by omega⟩
      rw [hout _ (Or.inr (by omega)),
        List.getElem?_append_right (by simp only [List.length_append, hold]; omega),
        List.getElem?_append_right (by simp only [List.length_append, hwl]; omega)]
      simp only [List.length_append, hold, hwl]

/-- `push_uint256` appends the opcode and the 32 bytes of the word, and nothing else. -/
theorem push_uint256_eq (hostBig : Bool) (data_addr : Nat) (code : List Nat) (n : Nat) :
    push_uint256 hostBig data_addr code n = code ++ Opcode.PUSH32 :: word_bytes n := by
  have h := to_big_endian_eq hostBig data_addr n (code ++ [Opcode.PUSH32])
    (List.replicate 32 0) [] (by simp)
  simp only [List.append_nil] at h
  unfold push_uint256
  simp only
  rw [h]
  simp

/-- The layout of the summing bytecode. -/
theorem create_a_plus_b_bytecode_eq (hostBig : Bool) (addr_a addr_b a b : Nat) :
    create_a_plus_b_bytecode hostBig addr_a addr_b a b =
      Opcode.PUSH32 :: (word_bytes a ++ Opcode.PUSH32 :: (word_bytes b ++
        [Opcode.ADD, Opcode.PUSH1, 0x0, Opcode.MSTORE, Opcode.PUSH1, 0x20, Opcode.PUSH1, 0x0,
          Opcode.RETURN])) := by
  simp [create_a_plus_b_bytecode, push_uint256_eq]

/-! ## Steps of the interpreter -/

theorem step_push32 (sched : GasSchedule) (budget : Nat) (code : List Nat) (f : Frame)
    (hop : code[f.pc]? = some Opcode.PUSH32) (hlen : f.pc + 33 ≤ code.length)
    (hgas : sched.base Opcode.PUSH32 ≤ f.gas) (hst : f.stack.length < 1024) :
    step sched budget code f = Step.running
      { pc := f.pc + 33, stack := from_big_endian ((code.drop (f.pc + 1)).take 32) :: f.stack,
        memory := f.memory, gas := f.gas - sched.base Opcode.PUSH32 } := by
  have h1 : ¬ (Opcode.PUSH32 = Opcode.STOP) := by decide
  have h2 : ¬ (Opcode.PUSH32 = Opcode.ADD) := by decide
  have h3 : ¬ (Opcode.PUSH32 = Opcode.PUSH1) := by decide
  have h4 : ¬ (code.length < f.pc + 1 + 32) := by omega
  have h5 : ¬ (f.gas < sched.base Opcode.PUSH32) := by omega
  have h6 : ¬ (1024 < f.stack.length + 1) := by omega
  unfold step
  rw [hop]
  simp only [h1, h2, h3, h4, h5, h6, if_false, or_true, false_or, if_true]

theorem step_push1 (sched : GasSchedule) (budget : Nat) (code : List Nat) (f : Frame)
    (hop : code[f.pc]? = some Opcode.PUSH1) (hlen : f.pc + 2 ≤ code.length)
    (hgas : sched.base Opcode.PUSH1 ≤ f.gas) (hst : f.stack.length < 1024) :
    step sched budget code f = Step.running
      { pc := f.pc + 2, stack := from_big_endian ((code.drop (f.pc + 1)).take 1) :: f.stack,
        memory := f.memory, gas := f.gas - sched.base Opcode.PUSH1 } := by
  have h1 : ¬ (Opcode.PUSH1 = Opcode.STOP) := by decide
  have h2 : ¬ (Opcode.PUSH1 = Opcode.ADD) := by decide
  have h4 : ¬ (code.length < f.pc + 1 + 1) := by omega
  have h5 : ¬ (f.gas < sched.base Opcode.PUSH1) := by omega
  have h6 : ¬ (1024 < f.stack.length + 1) := by omega
  unfold step
  rw [hop]
  simp only [h1, h2, h4, h5, h6, if_false, true_or, if_true]

theorem step_add (sched : GasSchedule) (budget : Nat) (code : List Nat) (f : Frame)
    (x y : Nat) (rest : List Nat)
    (hop : code[f.pc]? = some Opcode.ADD) (hstack : f.stack = x :: y :: rest)
    (hgas : sched.base Opcode.ADD ≤ f.gas) :
    step sched budget code f = Step.running
      { pc := f.pc + 1, stack := ((x + y) % UINT256_MOD) :: rest, memory := f.memory,
        gas := f.gas - sched.base Opcode.ADD } := by
  have h1 : ¬ (Opcode.ADD = Opcode.STOP) := by decide
  have h5 : ¬ (f.gas < sched.base Opcode.ADD) := by omega
  unfold step
  rw [hop]
  simp only [h1, h5, if_false, if_true, hstack]

theorem step_mstore (sched : GasSchedule) (budget : Nat) (code : List Nat) (f : Frame)
    (offset value : Nat) (rest : List Nat)
    (hop : code[f.pc]? = some Opcode.MSTORE) (hstack : f.stack = offset :: value :: rest)
    (hgas : sched.base Opcode.MSTORE + expansion_gas sched f.memory offset 32 ≤ f.gas) :
    step sched budget code f = Step.running
      { pc := f.pc + 1, stack := rest,
        memory := store_word (expand_memory f.memory offset 32) offset value,
        gas := f.gas - (sched.base Opcode.MSTORE + expansion_gas sched f.memory offset 32) } := by
  have h1 : ¬ (Opcode.MSTORE = Opcode.STOP) := by decide
  have h2 : ¬ (Opcode.MSTORE = Opcode.ADD) := by decide
  have h3 : ¬ (Opcode.MSTORE = Opcode.PUSH1 ∨ Opcode.MSTORE = Opcode.PUSH32) := by decide
  have h5 : ¬ (f.gas < sched.base Opcode.MSTORE + expansion_gas sched f.memory offset 32) := by
    omega
  unfold step
  rw [hop]
  simp only [h1, h2, h3, h5, if_false, if_true, hstack]

theorem step_return (sched : GasSchedule) (budget : Nat) (code : List Nat) (f : Frame)
    (offset size : Nat) (rest : List Nat)
    (hop : code[f.pc]? = some Opcode.RETURN) (hstack : f.stack = offset :: size :: rest)
    (hgas : sched.base Opcode.RETURN + expansion_gas sched f.memory offset size ≤ f.gas) :
    step sched budget code f = Step.halted
      ⟨ExitReason.returned, ((expand_memory f.memory offset size).drop offset).take size,
        budget - (f.gas - (sched.base Opcode.RETURN + expansion_gas sched f.memory offset size))⟩ := by
  have h1 : ¬ (Opcode.RETURN = Opcode.STOP) := by decide
  have h2 : ¬ (Opcode.RETURN = Opcode.ADD) := by decide
  have h3 : ¬ (Opcode.RETURN = Opcode.PUSH1 ∨ Opcode.RETURN = Opcode.PUSH32) := by decide
  have h4 : ¬ (Opcode.RETURN = Opcode.MSTORE) := by decide
  have h5 : ¬ (f.gas < sched.base Opcode.RETURN + expansion_gas sched f.memory offset size) := by
    omega
  unfold step
  rw [hop]
  simp only [h1, h2, h3, h4, h5, if_false, if_true, hstack]

theorem run_loop_running (sched : GasSchedule) (budget : Nat) (code : List Nat) (fuel : Nat)
    (f f' : Frame) (h : step sched budget code f = Step.running f') :
    run_loop sched budget code (fuel + 1) f = run_loop sched budget code fuel f' := by
  rw [run_loop, h]

theorem run_loop_halted (sched : GasSchedule) (budget : Nat) (code : List Nat) (fuel : Nat)
    (f : Frame) (r : ExecResult) (h : step sched budget code f = Step.halted r) :
    run_loop sched budget code (fuel + 1) f = some r := by
  rw [run_loop, h]

/-- The run of the summing bytecode on any two 32-byte operand fields. -/
theorem run_sum_layout (sched : GasSchedule) (A B : List Nat) (gas : Nat)
    (hA : A.length = 32) (hB : B.length = 32) (hgas : sum_program_gas sched ≤ gas) :
    run sched (Opcode.PUSH32 :: (A ++ Opcode.PUSH32 :: (B ++
        [Opcode.ADD, Opcode.PUSH1, 0x0, Opcode.MSTORE, Opcode.PUSH1, 0x20, Opcode.PUSH1, 0x0,
          Opcode.RETURN]))) gas =
      some ⟨ExitReason.returned,
        word_bytes ((from_big_endian B + from_big_endian A) % UINT256_MOD),
        sum_program_gas sched⟩ := by
  generalize hC : (Opcode.PUSH32 :: (A ++ Opcode.PUSH32 :: (B ++
        [Opcode.ADD, Opcode.PUSH1, 0x0, Opcode.MSTORE, Opcode.PUSH1, 0x20, Opcode.PUSH1, 0x0,
          Opcode.RETURN]))) = C
  have hlen : C.length = 75 := by
    rw [← hC]; simp [hA, hB]
  have hd1 : C.drop 1 = A ++ Opcode.PUSH32 :: (B ++
        [Opcode.ADD, Opcode.PUSH1, 0x0, Opcode.MSTORE, Opcode.PUSH1, 0x20, Opcode.PUSH1, 0x0,
          Opcode.RETURN]) := by
    rw [← hC]; rfl
  have hd33 : C.drop 33 = Opcode.PUSH32 :: (B ++
        [Opcode.ADD, Opcode.PUSH1, 0x0, Opcode.MSTORE, Opcode.PUSH1, 0x20, Opcode.PUSH1, 0x0,
          Opcode.RETURN]) := by
    have : C.drop 33 = (C.drop 1).drop 32 := by rw [List.drop_drop]
    rw [this, hd1, List.drop_left' hA]
  have hd34 : C.drop 34 = B ++
        [Opcode.ADD, Opcode.PUSH1, 0x0, Opcode.MSTORE, Opcode.PUSH1, 0x20, Opcode.PUSH1, 0x0,
          Opcode.RETURN] := by
    have : C.drop 34 = (C.drop 33).drop 1 := by rw [List.drop_drop]
    rw [this, hd33]; rfl
  have hd66 : C.drop 66 =
        [Opcode.ADD, Opcode.PUSH1, 0x0, Opcode.MSTORE, Opcode.PUSH1, 0x20, Opcode.PUSH1, 0x0,
          Opcode.RETURN] := by
    have : C.drop 66 = (C.drop 34).drop 32 := by rw [List.drop_drop]
    rw [this, hd34, List.drop_left' hB]
  have hat : ∀ k, C[66 + k]? =
        [Opcode.ADD, Opcode.PUSH1, 0x0, Opcode.MSTORE, Opcode.PUSH1, 0x20, Opcode.PUSH1, 0x0,
          Opcode.RETURN][k]? := by
    intro k; rw [← List.getElem?_drop, hd66]
  have hdk : ∀ k, C.drop (66 + k) =
        [Opcode.ADD, Opcode.PUSH1, 0x0, Opcode.MSTORE, Opcode.PUSH1, 0x20, Opcode.PUSH1, 0x0,
          Opcode.RETURN].drop k := by
    intro k; rw [← List.drop_drop, hd66]
  have c0 : C[0]? = some Opcode.PUSH32 := by rw [← hC]; simp
  have c33 : C[33]? = some Opcode.PUSH32 := by
    have := List.getElem?_drop C 33 0
    rw [hd33] at this
    simpa using this.symm
  have t1 : (C.drop 1).take 32 = A := by rw [hd1, List.take_left' hA]
  have t34 : (C.drop 34).take 32 = B := by rw [hd34, List.take_left' hB]
  have t68 : (C.drop 68).take 1 = [0x0] := by rw [hdk 2]; rfl
  have t71 : (C.drop 71).take 1 = [0x20] := by rw [hdk 5]; rfl
  have t73 : (C.drop 73).take 1 = [0x0] := by rw [hdk 7]; rfl
  have v0 : from_big_endian [0x0] = 0 := by decide
  have v20 : from_big_endian [0x20] = 32 := by decide
  have hmem0 : expand_memory [] 0 32 = List.replicate 32 0 := by decide
  have hgas0 : expansion_gas sched [] 0 32 = sched.memory 1 - sched.memory 0 := by
    simp [expansion_gas]
  have hmem1 : ∀ s, store_word (List.replicate 32 0) 0 s = word_bytes s := by
    intro s; simp [store_word]
  have hmem2 : ∀ s, expand_memory (word_bytes s) 0 32 = word_bytes s := by
    intro s; simp [expand_memory, word_bytes_length]
  have hgas2 : ∀ s, expansion_gas sched (word_bytes s) 0 32 = 0 := by
    intro s; simp [expansion_gas, word_bytes_length]
  have hout : ∀ s, ((word_bytes s).drop 0).take 32 = word_bytes s := by
    intro s
    rw [List.drop_zero, List.take_of_length_le (by rw [word_bytes_length])]
  unfold sum_program_gas at hgas ⊢
  unfold run
  rw [hlen]
  rw [run_loop_running _ _ _ _ _ _ (step_push32 sched gas C ⟨0, [], [], gas⟩ c0
    (by simp [hlen]) (by simp only; omega) (by simp))]
  simp only [Nat.zero_add, t1, Nat.reduceAdd]
  rw [run_loop_running _ _ _ _ _ _ (step_push32 sched gas C _ c33
    (by simp [hlen]) (by simp only; omega) (by simp))]
  simp only [t34, Nat.reduceAdd]
  rw [run_loop_running _ _ _ _ _ _ (step_add sched gas C _ _ _ [] (hat 0) rfl
    (by simp only; omega))]
  simp only [Nat.reduceAdd]
  rw [run_loop_running _ _ _ _ _ _ (step_push1 sched gas C _ (hat 1)
    (by simp [hlen]) (by simp only; omega) (by simp))]
  simp only [t68, v0, Nat.reduceAdd]
  rw [run_loop_running _ _ _ _ _ _ (step_mstore sched gas C _ _ _ [] (hat 3) rfl
    (by simp only [hgas0]; omega))]
  simp only [hmem0, hgas0, hmem1, Nat.reduceAdd]
  rw [run_loop_running _ _ _ _ _ _ (step_push1 sched gas C _ (hat 4)
    (by simp [hlen]) (by simp only; omega) (by simp))]
  simp only [t71, v20, Nat.reduceAdd]
  rw [run_loop_running _ _ _ _ _ _ (step_push1 sched gas C _ (hat 6)
    (by simp [hlen]) (by simp only; omega) (by simp))]
  simp only [t73, v0, Nat.reduceAdd]
  rw [run_loop_halted _ _ _ _ _ _ (step_return sched gas C _ _ _ [] (hat 8) rfl
    (by simp only [hgas2]; omega))]
  simp only [hmem2, hgas2, hout]
  congr 2
  omega

/-! ## Round trips and agreement of the two branches -/

/-- A buffer with room for 32 bytes at `off` splits into what is in front of them, the 32
bytes and what is behind them. -/
theorem buffer_split (mem : List Nat) (off : Nat) (hroom : off + 32 ≤ mem.length) :
    mem = mem.take off ++ (mem.drop off).take 32 ++ mem.drop (off + 32) ∧
    (mem.take off).length = off ∧ ((mem.drop off).take 32).length = 32 := by
  refine ⟨?_, ?_, ?_⟩
  · have h1 : mem.drop (off + 32) = (mem.drop off).drop 32 := by rw [List.drop_drop]
    rw [h1, List.append_assoc, List.take_append_drop, List.take_append_drop]
  · rw [List.length_take]; omega
  · rw [List.length_take, List.length_drop]; omega

/-- The 32 bytes at the pointer after `to_big_endian` are the encoding of the word. -/
theorem to_big_endian_region (hostBig : Bool) (base v : Nat) (mem : List Nat) (off : Nat)
    (hroom : off + 32 ≤ mem.length) :
    ((to_big_endian hostBig base v mem off).drop off).take 32 = word_bytes v := by
  obtain ⟨hsplit, hpre, hold⟩ := buffer_split mem off hroom
  have h := to_big_endian_eq hostBig base v (mem.take off) ((mem.drop off).take 32)
    (mem.drop (off + 32)) hold
  rw [hpre, ← hsplit] at h
  rw [h, List.append_assoc, List.drop_left' hpre, List.take_left' (word_bytes_length v)]

/-- The two loops of `to_big_endian` leave the same buffer. -/
theorem to_big_endian_loops_agree (hostBig : Bool) (v : Nat) (mem : List Nat) (off : Nat)
    (hroom : off + 32 ≤ mem.length) :
    to_big_endian_loop64 hostBig 4 v mem off = to_big_endian_loop8 32 v mem off := by
  obtain ⟨_, hin64, hout64⟩ := to_big_endian_loop64_spec hostBig 4 v mem off (by omega)
  obtain ⟨_, hin8, hout8⟩ := to_big_endian_loop8_spec 32 v mem off hroom
  apply List.ext_getElem?
  intro p
  by_cases h : p < off ∨ off + 32 ≤ p
  · rw [hout64 p (by omega), hout8 p h]
  · obtain ⟨j, rfl⟩ : ∃ j, p = off + j := ⟨p - off, by omega⟩
    rw [hin64 j (by omega), hin8 j (by omega)]

/-! ## The shape of the hexadecimal text -/

theorem dropWhile_head_false {α : Type} (p : α → Bool) : ∀ (l : List α) (d : α) (r : List α),
    l.dropWhile p = d :: r → p d = false := by
  intro l
  induction l with
  | nil => intro d r h; simp at h
  | cons x xs ih =>
    intro d r h
    rw [List.dropWhile_cons] at h
    by_cases hx : p x = true
    · rw [if_pos hx] at h
      exact ih d r h
    · rw [if_neg hx] at h
      simp only [List.cons.injEq] at h
      rw [← h.1]
      simpa using hx

/-- The digits `do_get_string` leaves: not empty, no leading zero unless the word is
zero, and with the word as their value. -/
theorem uint256_hex_digits (v : Nat) (hv : v < UINT256_MOD) :
    ∃ ds : List Nat, uint256_hex v = ds.map hex_char ∧ ds ≠ [] ∧ (∀ d ∈ ds, d < 16) ∧
      digits_value ds = v ∧ (ds.head? = some 0 → v = 0) ∧ (v = 0 → ds = [0]) := by
  by_cases hv0 : v = 0
  · subst hv0
    exact ⟨[0], by decide, by decide, by decide, by decide, fun _ => rfl, fun _ => rfl⟩
  · obtain ⟨_, hcov⟩ := limbs_in_use_covers v hv
    unfold uint256_hex
    generalize limbs_in_use v * 64 / 4 = n at hcov
    have hlt := nibbles_lt n v
    have hval : digits_value ((nibbles n v).dropWhile (fun d => d == 0)) = v := by
      rw [digits_value_dropWhile_zero, digits_value_nibbles, Nat.mod_eq_of_lt hcov]
    have hmap := dropWhile_zero_map_hex_char (nibbles n v) hlt
    cases hD : (nibbles n v).dropWhile (fun d => d == 0) with
    | nil =>
      rw [hD] at hval
      exact absurd hval.symm hv0
    | cons d r =>
      have hd : (d == 0) = false := dropWhile_head_false _ _ d r hD
      have hmem : ∀ x ∈ d :: r, x < 16 := by
        intro x hx
        rw [← hD] at hx
        exact hlt x ((List.dropWhile_sublist _).subset hx)
      refine ⟨d :: r, ?_, by simp, hmem, by rw [← hD]; exact hval, ?_, fun h => absurd h hv0⟩
      · rw [hex_fill_eq, List.append_nil]
        unfold erase_leading_zeros
        rw [hmap, hD]
        rfl
      · intro h
        simp only [List.head?_cons, Option.some.injEq] at h
        rw [h] at hd
        exact absurd hd (by decide)

/-! ## The summing bytecode without gas -/

theorem validate_args_plain (bin_name x y : List Char) :
    validate_args [bin_name, x, y] = some (false, 1) := by
  simp [validate_args]

theorem validate_args_verbose (bin_name x y : List Char) :
    validate_args [bin_name, "-v".toList, x, y] = some (true, 2) := by
  simp [validate_args]

theorem validate_args_none_iff (bin_name : List Char) (args : List (List Char)) :
    validate_args (bin_name :: args) = none ↔
      (args.length + 1 < 3 ∨ args.length + 1 > 4 ∨
        (args.length + 1 = 4 ∧ (bin_name :: args).getD 1 [] ≠ "-v".toList)) := by
  unfold validate_args
  simp only [List.length_cons]
  by_cases h1 : args.length + 1 < 3 ∨ args.length + 1 > 4
  · rw [if_pos h1]
    constructor
    · intro _; rcases h1 with h | h
      · exact Or.inl h
      · exact Or.inr (Or.inl h)
    · intro _; rfl
  · rw [if_neg h1]
    by_cases h2 : args.length + 1 = 4
    · rw [if_pos h2]
      by_cases h3 : (bin_name :: args).getD 1 [] ≠ "-v".toList
      · rw [if_pos h3]
        exact ⟨fun _ => Or.inr (Or.inr ⟨h2, h3⟩), fun _ => rfl⟩
      · rw [if_neg h3]
        constructor
        · intro h; exact absurd h (by simp)
        · intro h
          rcases h with h | h | h
          · exact absurd (Or.inl h) h1
          · exact absurd (Or.inr h) h1
          · exact absurd h.2 h3
    · rw [if_neg h2]
      constructor
      · intro h; exact absurd h (by simp)
      · intro h
        rcases h with h | h | h
        · exact absurd (Or.inl h) h1
        · exact absurd (Or.inr h) h1
        · exact absurd h.1 h2

theorem main_usage (host : Host) (bin_name : List Char) (args : List (List Char))
    (h : validate_args (bin_name :: args) = none) :
    main host bin_name args = some (usage bin_name) := by
  unfold main
  rw [h]

theorem main_plain (host : Host) (bin_name x y : List Char) (a b : Nat)
    (ha : from_hex_str x = some a) (hb : from_hex_str y = some b) :
    main host bin_name [x, y] =
      if (main_execution host a b).er ≠ ExitReason.returned then
        some (2, [Printed.unexpected_return_code (main_execution host a b).er])
      else
        some (0, [Printed.sum_line (to_lower_hex_str a) (to_lower_hex_str b)
          (to_lower_hex_str (from_big_endian (main_execution host a b).output))]) := by
  unfold main main_execution
  rw [validate_args_plain]
  simp only [List.getD_cons_succ, List.getD_cons_zero, ha, hb]
  simp

theorem main_verbose (host : Host) (bin_name x y : List Char) (a b : Nat)
    (ha : from_hex_str x = some a) (hb : from_hex_str y = some b) :
    main host bin_name ["-v".toList, x, y] =
      if (main_execution host a b).er ≠ ExitReason.returned then
        some (2, [Printed.calculating (to_lower_hex_str a) (to_lower_hex_str b),
          Printed.contains_bytecode (host.generate_address (sender host.rand) 0)
            (create_a_plus_b_bytecode host.hostBig host.addr_a host.addr_b a b),
          Printed.executing (sender host.rand) (host.generate_address (sender host.rand) 0),
          Printed.unexpected_return_code (main_execution host a b).er])
      else
        some (0, [Printed.calculating (to_lower_hex_str a) (to_lower_hex_str b),
          Printed.contains_bytecode (host.generate_address (sender host.rand) 0)
            (create_a_plus_b_bytecode host.hostBig host.addr_a host.addr_b a b),
          Printed.executing (sender host.rand) (host.generate_address (sender host.rand) 0),
          Printed.execution_completed (main_execution host a b).output.length,
          Printed.sum_line (to_lower_hex_str a) (to_lower_hex_str b)
            (to_lower_hex_str (from_big_endian (main_execution host a b).output))]) := by
  unfold main main_execution
  rw [validate_args_verbose]
  simp only [List.getD_cons_succ, List.getD_cons_zero, ha, hb]
  simp [create_account]

theorem main_parse_failure (host : Host) (bin_name x y : List Char)
    (h : from_hex_str x = none ∨ from_hex_str y = none) :
    main host bin_name [x, y] = none ∧ main host bin_name ["-v".toList, x, y] = none := by
  constructor
  · unfold main
    rw [validate_args_plain]
    simp only [List.getD_cons_succ, List.getD_cons_zero]
    rcases h with h | h
    · rw [h]
    · rw [h]
      cases from_hex_str x <;> rfl
  · unfold main
    rw [validate_args_verbose]
    simp only [List.getD_cons_succ, List.getD_cons_zero]
    rcases h with h | h
    · rw [h]
    · rw [h]
      cases from_hex_str x <;> rfl

/-- The argument vectors that pass the validation. -/
theorem validate_args_some (bin_name : List Char) (args : List (List Char))
    (h : validate_args (bin_name :: args) ≠ none) :
    ∃ x y, args = [x, y] ∨ args = ["-v".toList, x, y] := by
  match args, h with
  | [], h => exact absurd (by simp [validate_args]) h
  | [_], h => exact absurd (by simp [validate_args]) h
  | [x, y], _ => exact ⟨x, y, Or.inl rfl⟩
  | [f, x, y], h =>
    by_cases hf : f = "-v".toList
    · exact ⟨x, y, Or.inr (by rw [hf])⟩
    · exact absurd (by simp [validate_args]; exact hf) h
  | _ :: _ :: _ :: _ :: _ :: _, h => exact absurd (by simp [validate_args]) h

/-- The exit code with `-v` is the exit code without it, whatever the operands are. -/
theorem main_verbose_exit_code (host : Host) (bin_name x y : List Char) :
    (main host bin_name ["-v".toList, x, y]).map Prod.fst =
      (main host bin_name [x, y]).map Prod.fst := by
  cases ha : from_hex_str x with
  | none =>
    obtain ⟨h1, h2⟩ := main_parse_failure host bin_name x y (Or.inl ha)
    rw [h1, h2]
  | some a =>
    cases hb : from_hex_str y with
    | none =>
      obtain ⟨h1, h2⟩ := main_parse_failure host bin_name x y (Or.inr hb)
      rw [h1, h2]
    | some b =>
      rw [main_plain host bin_name x y a b ha hb, main_verbose host bin_name x y a b ha hb]
      by_cases he : (main_execution host a b).er ≠ ExitReason.returned
      · rw [if_pos he, if_pos he]; rfl
      · rw [if_neg he, if_neg he]; rfl

/-- The exit code of `main` on two operands: none when an operand does not parse, else 2
or 0 by the exit reason of the execution. -/
theorem main_plain_exit_code (host : Host) (bin_name x y : List Char) :
    (main host bin_name [x, y]).map Prod.fst =
      match from_hex_str x, from_hex_str y with
      | some a, some b =>
        some (if (main_execution host a b).er ≠ ExitReason.returned then 2 else 0)
      | _, _ => none := by
  cases ha : from_hex_str x with
  | none =>
    rw [(main_parse_failure host bin_name x y (Or.inl ha)).1]
    rfl
  | some a =>
    cases hb : from_hex_str y with
    | none =>
      rw [(main_parse_failure host bin_name x y (Or.inr hb)).1]
      rfl
    | some b =>
      rw [main_plain host bin_name x y a b ha hb]
      by_cases he : (main_execution host a b).er ≠ ExitReason.returned
      · simp only [if_pos he]; rfl
      · simp only [if_neg he]; rfl

theorem main_plain_exit_code_ne_one (host : Host) (bin_name x y : List Char) :
    (main host bin_name [x, y]).map Prod.fst ≠ some 1 ∧
    ∀ c out, main host bin_name [x, y] = some (c, out) → c = 0 ∨ c = 2 := by
  have h := main_plain_exit_code host bin_name x y
  cases ha : from_hex_str x with
  | none =>
    have hn := (main_parse_failure host bin_name x y (Or.inl ha)).1
    rw [hn]
    exact ⟨by simp, fun c out hc => absurd hc (by simp)⟩
  | some a =>
    cases hb : from_hex_str y with
    | none =>
      have hn := (main_parse_failure host bin_name x y (Or.inr hb)).1
      rw [hn]
      exact ⟨by simp, fun c out hc => absurd hc (by simp)⟩
    | some b =>
      rw [ha, hb] at h
      simp only at h
      by_cases he : (main_execution host a b).er ≠ ExitReason.returned
      · rw [if_pos he] at h
        refine ⟨by rw [h]; decide, ?_⟩
        intro c out hc
        rw [hc] at h
        simp only [Option.map_some', Option.some.injEq] at h
        exact Or.inr h
      · rw [if_neg he] at h
        refine ⟨by rw [h]; decide, ?_⟩
        intro c out hc
        rw [hc] at h
        simp only [Option.map_some', Option.some.injEq] at h
        exact Or.inl h

/-- What `main` prints without `-v` is part of what it prints with `-v`, in order. -/
theorem main_verbose_printed (host : Host) (bin_name x y : List Char) (c c' : Int)
    (out out' : List Printed) (h : main host bin_name [x, y] = some (c, out))
    (h' : main host bin_name ["-v".toList, x, y] = some (c', out')) :
    c' = c ∧ out.Sublist out' := by
  cases ha : from_hex_str x with
  | none =>
    rw [(main_parse_failure host bin_name x y (Or.inl ha)).1] at h
    exact absurd h (by simp)
  | some a =>
    cases hb : from_hex_str y with
    | none =>
      rw [(main_parse_failure host bin_name x y (Or.inr hb)).1] at h
      exact absurd h (by simp)
    | some b =>
      rw [main_plain host bin_name x y a b ha hb] at h
      rw [main_verbose host bin_name x y a b ha hb] at h'
      by_cases he : (main_execution host a b).er ≠ ExitReason.returned
      · rw [if_pos he] at h h'
        simp only [Option.some.injEq, Prod.mk.injEq] at h h'
        rw [← h.1, ← h.2, ← h'.1, ← h'.2]
        exact ⟨rfl, List.Sublist.cons _ (List.Sublist.cons _ (List.Sublist.cons _
          (List.Sublist.refl _)))⟩
      · rw [if_neg he] at h h'
        simp only [Option.some.injEq, Prod.mk.injEq] at h h'
        rw [← h.1, ← h.2, ← h'.1, ← h'.2]
        exact ⟨rfl, List.Sublist.cons _ (List.Sublist.cons _ (List.Sublist.cons _
          (List.Sublist.cons _ (List.Sublist.refl _))))⟩

/-! ## The run with its log: lemmas -/

/-- **C1.** `to_big_endian(v, out)` writes exactly the 32 bytes `out[0..31]`, with
`out[i] = (v >> (8 * (31 - i))) mod 256`, the big-endian encoding of `v` padded with
zeros on the left, and leaves every other byte of the buffer as it was. This holds in
the 64-bit aligned branch and in the byte-by-byte branch (any address `base + off` of
`out`), on a little-endian and on a big-endian host. -/
theorem to_big_endian_writes_big_endian (hostBig : Bool) (base v : Nat) (mem : List Nat)
    (off : Nat) (hroom : off + 32 ≤ mem.length) :
    (to_big_endian hostBig base v mem off).length = mem.length ∧
    (∀ i, i < 32 →
      (to_big_endian hostBig base v mem off)[off + i]? = some ((v >>> (8 * (31 - i))) % 256)) ∧
    (∀ p, (p < off ∨ off + 32 ≤ p) → (to_big_endian hostBig base v mem off)[p]? = mem[p]?) := by
  unfold to_big_endian
  split
  · have h := to_big_endian_loop64_spec hostBig 4 v mem off (by omega)
    exact h
  · exact to_big_endian_loop8_spec 32 v mem off hroom

/-- The word `0x0102` written at offset 4 of a 40-byte buffer at an aligned address. -/
theorem to_big_endian_writes_big_endian_witness :
    4 + 32 ≤ (List.replicate 40 7).length ∧
    ((to_big_endian false 4 0x0102 (List.replicate 40 7) 4).length = (List.replicate 40 7).length ∧
    (∀ i, i < 32 →
      (to_big_endian false 4 0x0102 (List.replicate 40 7) 4)[4 + i]? =
        some ((0x0102 >>> (8 * (31 - i))) % 256)) ∧
    (∀ p, (p < 4 ∨ 4 + 32 ≤ p) →
      (to_big_endian false 4 0x0102 (List.replicate 40 7) 4)[p]? = (List.replicate 40 7)[p]?)) :=
  ⟨by decide, to_big_endian_writes_big_endian false 4 0x0102 (List.replicate 40 7) 4 (by decide)⟩

/-- **C2.** For a byte sequence `b` of length `n ≤ 32` (the empty one included),
`from_big_endian(b)` is the sum over `i` of `b[i] * 256 ^ (n - 1 - i)`, and it is what
`from_big_endian` gives for `b` padded on the left with `32 - n` zero bytes: the missing
high-order bytes count as zero. -/
theorem from_big_endian_short (bytes : List Nat) (hlen : bytes.length ≤ 32)
    (hbytes : ∀ b ∈ bytes, b < 256) :
    from_big_endian bytes =
      ∑ i ∈ Finset.range bytes.length, bytes.getD i 0 * 256 ^ (bytes.length - 1 - i) ∧
    from_big_endian (List.replicate (32 - bytes.length) 0 ++ bytes) = from_big_endian bytes := by
  constructor
  · rw [from_big_endian_eq_be_sum bytes hlen hbytes, be_sum_eq_sum]
  · have hpad : ∀ b ∈ List.replicate (32 - bytes.length) 0 ++ bytes, b < 256 := by
      intro b hb
      rcases List.mem_append.mp hb with h | h
      · rw [(List.mem_replicate.mp h).2]; norm_num
      · exact hbytes b h
    rw [from_big_endian_eq_be_sum _ (by simp; omega) hpad,
      from_big_endian_eq_be_sum bytes hlen hbytes, be_sum_replicate_zero]

/-- The two bytes `01 02` and the empty sequence. -/
theorem from_big_endian_short_witness :
    [1, 2].length ≤ 32 ∧ (∀ b ∈ [1, 2], b < 256) ∧
    (from_big_endian [1, 2] =
      ∑ i ∈ Finset.range [1, 2].length, [1, 2].getD i 0 * 256 ^ ([1, 2].length - 1 - i) ∧
    from_big_endian (List.replicate (32 - [1, 2].length) 0 ++ [1, 2]) = from_big_endian [1, 2]) ∧
    from_big_endian [1, 2] = 258 ∧ from_big_endian [] = 0 :=
  ⟨by decide, by decide, from_big_endian_short [1, 2] (by decide) (by decide), by decide,
    by decide⟩

/-- **C3.** Decoding the JSON that `to_json` produces for a log entry with `from_json`
gives back an entry equal to it under `LogEntry::operator==`: address, data bytes and
topics are all equal. This holds for the JSON built from a `null` value and for the JSON
built on top of any value `to_json` accepts. -/
theorem log_entry_json_round_trip (e : LogEntry) (haddr : e.address < UINT256_MOD)
    (hdata : ∀ b ∈ e.data, b < 256) (htopics : ∀ t ∈ e.topics, t < UINT256_MOD) :
    (∃ j e', to_json Json.null e = some j ∧ from_json j = some e' ∧
      e'.operator_eq e = true ∧ e'.address = e.address ∧ e'.data = e.data ∧
      e'.topics = e.topics) ∧
    (∀ j0 j, to_json j0 e = some j →
      ∃ e', from_json j = some e' ∧ e'.operator_eq e = true) := by
  constructor
  · refine ⟨_, e, to_json_null e, ?_, (operator_eq_iff e e).mpr rfl, rfl, rfl, rfl⟩
    exact from_json_to_json e haddr hdata htopics Json.null _ (to_json_null e)
  · intro j0 j hj
    exact ⟨e, from_json_to_json e haddr hdata htopics j0 j hj, (operator_eq_iff e e).mpr rfl⟩

/-- An entry with two data bytes and two topics. -/
theorem log_entry_json_round_trip_witness :
    (0xabc < UINT256_MOD ∧ (∀ b ∈ [1, 255], b < 256) ∧ (∀ t ∈ [0, 2 ^ 255], t < UINT256_MOD)) ∧
    ((∃ j e', to_json Json.null ⟨0xabc, [1, 255], [0, 2 ^ 255]⟩ = some j ∧
      from_json j = some e' ∧
      e'.operator_eq ⟨0xabc, [1, 255], [0, 2 ^ 255]⟩ = true ∧
      e'.address = (⟨0xabc, [1, 255], [0, 2 ^ 255]⟩ : LogEntry).address ∧
      e'.data = (⟨0xabc, [1, 255], [0, 2 ^ 255]⟩ : LogEntry).data ∧
      e'.topics = (⟨0xabc, [1, 255], [0, 2 ^ 255]⟩ : LogEntry).topics) ∧
    (∀ j0 j, to_json j0 ⟨0xabc, [1, 255], [0, 2 ^ 255]⟩ = some j →
      ∃ e', from_json j = some e' ∧ e'.operator_eq ⟨0xabc, [1, 255], [0, 2 ^ 255]⟩ = true)) :=
  ⟨⟨by decide, by decide, by decide⟩,
    log_entry_json_round_trip ⟨0xabc, [1, 255], [0, 2 ^ 255]⟩ (by decide) (by decide)
      (by decide)⟩

/-- **C4.** `LogEntry::operator==` is structural equality: `a == b` is true exactly when
the addresses are equal, the data bytes are equal and the topics are equal (same length,
same words in the same order); so `==` is reflexive, symmetric and transitive. -/
theorem log_entry_eq_structural :
    (∀ a b : LogEntry, a.operator_eq b = true ↔
      (a.address = b.address ∧ a.data = b.data ∧ a.topics = b.topics)) ∧
    (∀ a b : LogEntry, a.topics = b.topics ↔
      (a.topics.length = b.topics.length ∧ ∀ i : Nat, a.topics[i]? = b.topics[i]?)) ∧
    (∀ a : LogEntry, a.operator_eq a = true) ∧
    (∀ a b : LogEntry, a.operator_eq b = b.operator_eq a) ∧
    (∀ a b c : LogEntry, a.operator_eq b = true → b.operator_eq c = true →
      a.operator_eq c = true) := by
  refine ⟨?_, ?_, ?_, ?_, ?_⟩
  · intro a b
    rw [operator_eq_iff]
    obtain ⟨a1, a2, a3⟩ := a
    obtain ⟨b1, b2, b3⟩ := b
    simp
  · intro a b
    constructor
    · intro h; rw [h]; exact ⟨rfl, fun _ => rfl⟩
    · intro h; exact List.ext_getElem? h.2
  · intro a
    exact (operator_eq_iff a a).mpr rfl
  · intro a b
    cases hab : a.operator_eq b
    · cases hba : b.operator_eq a
      · rfl
      · exact absurd ((operator_eq_iff a b).mpr ((operator_eq_iff b a).mp hba).symm) (by simp [hab])
    · exact ((operator_eq_iff b a).mpr ((operator_eq_iff a b).mp hab).symm).symm
  · intro a b c hab hbc
    exact (operator_eq_iff a c).mpr
      (((operator_eq_iff a b).mp hab).trans ((operator_eq_iff b c).mp hbc))

/-- **C5.** `to_json` of a log entry is an object with the three fields `address`,
`data` and `topics`: `address` is the lowercase `0x` text of the address, `data` has two
lowercase hexadecimal digits for every byte of the entry's data and nothing else, and
`topics` is a list as long as the entry's topics whose `i`-th element is the lowercase
`0x` text of the `i`-th topic. -/
theorem to_json_fields (e : LogEntry) :
    to_json Json.null e = some (Json.object [
      ("address", Json.string (to_lower_hex_str e.address)),
      ("data", Json.string (to_hex_string e.data)),
      ("topics", Json.array (e.topics.map (fun t => Json.string (to_lower_hex_str t))))]) ∧
    to_lower_hex_str e.address = '0' :: 'x' :: uint256_hex e.address ∧
    (∀ c ∈ to_lower_hex_str e.address, c ∈ "0123456789abcdefx".toList) ∧
    (to_hex_string e.data).length = 2 * e.data.length ∧
    (∀ (i b : Nat), e.data[i]? = some b →
      (to_hex_string e.data)[2 * i]? = some (hex_char (b / 16 % 16)) ∧
      (to_hex_string e.data)[2 * i + 1]? = some (hex_char (b % 16))) ∧
    (∀ c ∈ to_hex_string e.data, c ∈ "0123456789abcdef".toList) ∧
    (e.topics.map (fun t => Json.string (to_lower_hex_str t))).length = e.topics.length ∧
    (∀ (i t : Nat), e.topics[i]? = some t →
      (e.topics.map (fun t => Json.string (to_lower_hex_str t)))[i]? =
        some (Json.string (to_lower_hex_str t))) := by
  refine ⟨to_json_null e, ?_, ?_, to_hex_string_length _, to_hex_string_getElem? _, ?_, ?_, ?_⟩
  · rw [to_lower_hex_str_eq]; rfl
  · intro c hc
    rw [to_lower_hex_str_eq] at hc
    have hc' : c = '0' ∨ c = 'x' ∨ c ∈ uint256_hex e.address := by
      simpa [to_hex_str] using hc
    rcases hc' with rfl | rfl | hc'
    · decide
    · decide
    · obtain ⟨d, hd, rfl⟩ := uint256_hex_chars _ c hc'
      interval_cases d <;> decide
  · exact to_hex_string_chars e.data
  · simp
  · intro i t h
    simp [List.getElem?_map, h]

/-- **C6.** The bytecode of `create_a_plus_b_bytecode(a, b)`, run from program counter 0
with an empty stack and empty memory on a gas budget that covers its opcodes, halts with
exit reason `returned` and an output of exactly 32 bytes, the big-endian encoding of
`(a + b) mod 2 ^ 256`; `from_big_endian` of the output is `(a + b) mod 2 ^ 256`. -/
theorem sum_bytecode_returns_sum (sched : GasSchedule) (hostBig : Bool)
    (addr_a addr_b a b gas : Nat) (ha : a < UINT256_MOD) (hb : b < UINT256_MOD)
    (hgas : sum_program_gas sched ≤ gas) :
    ∃ r, run sched (create_a_plus_b_bytecode hostBig addr_a addr_b a b) gas = some r ∧
      r.er = ExitReason.returned ∧ r.output.length = 32 ∧
      r.output = word_bytes ((a + b) % UINT256_MOD) ∧
      from_big_endian r.output = (a + b) % UINT256_MOD := by
  have hA : from_big_endian (word_bytes a) = a := by
    rw [from_big_endian_word_bytes, Nat.mod_eq_of_lt ha]
  have hB : from_big_endian (word_bytes b) = b := by
    rw [from_big_endian_word_bytes, Nat.mod_eq_of_lt hb]
  have hrun := run_sum_layout sched (word_bytes a) (word_bytes b) gas (word_bytes_length a)
    (word_bytes_length b) hgas
  rw [hA, hB, Nat.add_comm b a] at hrun
  refine ⟨⟨ExitReason.returned, word_bytes ((a + b) % UINT256_MOD), sum_program_gas sched⟩,
    ?_, rfl, ?_, rfl, ?_⟩
  · rw [create_a_plus_b_bytecode_eq]; exact hrun
  · exact word_bytes_length _
  · show from_big_endian (word_bytes ((a + b) % UINT256_MOD)) = (a + b) % UINT256_MOD
    rw [from_big_endian_word_bytes, Nat.mod_mod]

/-- The operands `0x01` and `0x02` under a cost table of three units for every opcode
and every word of memory, on a budget of 100: the output is the 32-byte big-endian
encoding of 3. -/
theorem sum_bytecode_returns_sum_witness :
    (1 < UINT256_MOD ∧ 2 < UINT256_MOD ∧
      sum_program_gas ⟨fun _ => 3, fun words => 3 * words⟩ ≤ 100) ∧
    (∃ r, run ⟨fun _ => 3, fun words => 3 * words⟩
        (create_a_plus_b_bytecode false 0 0 1 2) 100 = some r ∧
      r.er = ExitReason.returned ∧ r.output.length = 32 ∧
      r.output = word_bytes ((1 + 2) % UINT256_MOD) ∧
      from_big_endian r.output = (1 + 2) % UINT256_MOD) ∧
    word_bytes ((1 + 2) % UINT256_MOD) = List.replicate 31 0 ++ [3] :=
  ⟨⟨by decide, by decide, by decide⟩,
    sum_bytecode_returns_sum ⟨fun _ => 3, fun words => 3 * words⟩ false 0 0 1 2 100
      (by decide) (by decide) (by decide),
    by decide⟩

/-- **C7.** `power(b, e)` is not `b ^ e mod 2 ^ 256` for every 64-bit exponent: the
exponent is first cut to its low 32 bits, so `power(b, e) = b ^ (e mod 2 ^ 32) mod
2 ^ 256`. At `b = 2`, `e = 2 ^ 32` the code returns `1`, while `2 ^ e mod 2 ^ 256` is
`0` for every `e ≥ 256`. -/
theorem power_exponent_truncated :
    (∀ b e : Nat, power b e = b ^ (e % 2 ^ 32) % 2 ^ 256) ∧
    power 2 4294967296 = 1 ∧
    (∀ e : Nat, 256 ≤ e → 2 ^ e % 2 ^ 256 = 0) ∧ 256 ≤ 4294967296 := by
  refine ⟨fun b e => rfl, by decide, ?_, by decide⟩
  intro e he
  exact Nat.mod_eq_zero_of_dvd (Nat.pow_dvd_pow 2 he)

/-- **C8.** `get_sign(v)` is the sign of the two's-complement reading of `v`, taken from
the top bit: it is `-1` exactly when bit 255 of `v` is set, that is when `v ≥ 2 ^ 255`,
and `1` otherwise, also for `v = 0`; it has no other value. -/
theorem get_sign_top_bit (v : Nat) (hv : v < UINT256_MOD) :
    (get_sign v = -1 ↔ v.testBit 255 = true) ∧
    (get_sign v = -1 ↔ 2 ^ 255 ≤ v) ∧
    (get_sign v = -1 ↔ twos_complement_value v < 0) ∧
    (get_sign v = 1 ↔ v < 2 ^ 255) ∧
    (get_sign v = -1 ∨ get_sign v = 1) ∧
    get_sign 0 = 1 := by
  have hdiv : v >>> 255 = v / 2 ^ 255 := Nat.shiftRight_eq_div_pow v 255
  have hbit : v.testBit 255 = decide (v / 2 ^ 255 % 2 = 1) := Nat.testBit_to_div_mod
  unfold UINT256_MOD at hv
  by_cases h : 2 ^ 255 ≤ v
  · have h1 : v / 2 ^ 255 = 1 := by omega
    have hs : get_sign v = -1 := by
      unfold get_sign
      rw [hdiv, h1]
      rfl
    have ht : twos_complement_value v < 0 := by
      unfold twos_complement_value
      rw [if_neg (by omega)]
      omega
    refine ⟨?_, ?_, ?_, ?_, Or.inl hs, by decide⟩
    · rw [hs, hbit, h1]; decide
    · exact ⟨fun _ => h, fun _ => hs⟩
    · exact ⟨fun _ => ht, fun _ => hs⟩
    · rw [hs]
      exact ⟨fun hc => absurd hc (by decide), fun hlt => absurd h (by omega)⟩
  · have h0 : v / 2 ^ 255 = 0 := by omega
    have hs : get_sign v = 1 := by
      unfold get_sign
      rw [hdiv, h0]
      rfl
    have ht : ¬ twos_complement_value v < 0 := by
      unfold twos_complement_value
      rw [if_pos (by omega)]
      omega
    refine ⟨?_, ?_, ?_, ?_, Or.inr hs, by decide⟩
    · rw [hs, hbit, h0]; decide
    · rw [hs]
      exact ⟨fun hc => absurd hc (by decide), fun hge => absurd hge h⟩
    · rw [hs]
      exact ⟨fun hc => absurd hc (by decide), fun hlt => absurd hlt ht⟩
    · exact ⟨fun _ => by omega, fun _ => hs⟩

/-- The smallest word with the top bit set, and the largest one without it. -/
theorem get_sign_top_bit_witness :
    2 ^ 255 < UINT256_MOD ∧
    ((get_sign (2 ^ 255) = -1 ↔ (2 ^ 255).testBit 255 = true) ∧
    (get_sign (2 ^ 255) = -1 ↔ 2 ^ 255 ≤ 2 ^ 255) ∧
    (get_sign (2 ^ 255) = -1 ↔ twos_complement_value (2 ^ 255) < 0) ∧
    (get_sign (2 ^ 255) = 1 ↔ 2 ^ 255 < 2 ^ 255) ∧
    (get_sign (2 ^ 255) = -1 ∨ get_sign (2 ^ 255) = 1) ∧
    get_sign 0 = 1) ∧
    get_sign (2 ^ 255) = -1 ∧ get_sign (2 ^ 255 - 1) = 1 :=
  ⟨by decide, get_sign_top_bit (2 ^ 255) (by decide), by decide, by decide⟩

/-- **C9.** The `sender` that `main` builds is not below `2 ^ 160`: `raw_address` has 160
bytes, not 160 bits, and `from_big_endian` keeps the value of its last 32 bytes. When
every call of `rand()` returns 255 the sender is `2 ^ 256 - 1`. -/
theorem sender_not_160_bits :
    (∀ rand : Nat → Nat,
      sender rand = be_sum ((List.range 32).map (fun k => rand (128 + k) % 256))) ∧
    sender (fun _ => 255) = 2 ^ 256 - 1 ∧
    ¬ (sender (fun _ => 255) < 2 ^ 160) := by
  have hgen : ∀ rand : Nat → Nat,
      sender rand = be_sum ((List.range 32).map (fun k => rand (128 + k) % 256)) := by
    intro rand
    have hsplit : raw_address rand = (List.range 128).map (fun k => rand k % 256) ++
        (List.range 32).map (fun k => rand (128 + k) % 256) := by
      unfold raw_address
      rw [show (160 : Nat) = 128 + 32 from rfl, List.range_add, List.map_append, List.map_map]
      rfl
    unfold sender from_big_endian
    rw [hsplit]
    apply import_bits_loop_long
    · simp
    · intro b hb
      simp only [List.mem_map] at hb
      obtain ⟨k, _, rfl⟩ := hb
      exact Nat.mod_lt _ (by norm_num)
  have hval : sender (fun _ => 255) = 2 ^ 256 - 1 := by
    rw [hgen]
    decide
  refine ⟨hgen, hval, ?_⟩
  rw [hval]
  decide

/-- **C10 (as stated, refuted).** A JSON object whose `topics` list has five elements
decodes into a log entry with five topics. -/
theorem from_json_five_topics :
    from_json (Json.object [
      ("address", Json.string "0x0".toList),
      ("data", Json.string []),
      ("topics", Json.array [Json.string "0x1".toList, Json.string "0x2".toList,
        Json.string "0x3".toList, Json.string "0x4".toList, Json.string "0x5".toList])]) =
      some ⟨0, [], [1, 2, 3, 4, 5]⟩ ∧
    ¬ ((⟨0, [], [1, 2, 3, 4, 5]⟩ : LogEntry).topics.length ≤ 4) := by
  decide

/-- **C10 (amended).** `from_json` puts no bound on the number of topics: the entry it
decodes has exactly as many topics as the JSON `topics` list has elements, so it has at
most 4 topics exactly when that list has at most 4 elements. -/
theorem from_json_topics_length (j : Json) (e : LogEntry) (h : from_json j = some e) :
    ∃ items, j.at_key "topics" = some (Json.array items) ∧
      e.topics.length = items.length ∧ (e.topics.length ≤ 4 ↔ items.length ≤ 4) := by
  unfold from_json at h
  split at h
  · rename_i address data topics _ _ htop
    simp only [Option.some.injEq] at h
    subst h
    cases hk : j.at_key "topics" with
    | none => rw [hk] at htop; simp at htop
    | some jt =>
      rw [hk] at htop
      simp only [Option.some_bind] at htop
      cases jt with
      | array items =>
        have hl := vector_from_json_items_length items topics htop
        exact ⟨items, rfl, hl, by rw [hl]⟩
      | null => simp [vector_from_json] at htop
      | string s => simp [vector_from_json] at htop
      | object fs => simp [vector_from_json] at htop
  · exact absurd h (by simp)

/-- The five-topic object again: its entry has the five topics of the list. -/
theorem from_json_topics_length_witness :
    from_json (Json.object [
      ("address", Json.string "0x0".toList),
      ("data", Json.string []),
      ("topics", Json.array [Json.string "0x1".toList, Json.string "0x2".toList,
        Json.string "0x3".toList, Json.string "0x4".toList, Json.string "0x5".toList])]) =
      some ⟨0, [], [1, 2, 3, 4, 5]⟩ ∧
    ∃ items, (Json.object [
      ("address", Json.string "0x0".toList),
      ("data", Json.string []),
      ("topics", Json.array [Json.string "0x1".toList, Json.string "0x2".toList,
        Json.string "0x3".toList, Json.string "0x4".toList,
        Json.string "0x5".toList])]).at_key "topics" = some (Json.array items) ∧
      (⟨0, [], [1, 2, 3, 4, 5]⟩ : LogEntry).topics.length = items.length ∧
      ((⟨0, [], [1, 2, 3, 4, 5]⟩ : LogEntry).topics.length ≤ 4 ↔ items.length ≤ 4) :=
  ⟨by decide, from_json_topics_length _ ⟨0, [], [1, 2, 3, 4, 5]⟩ (by decide)⟩

/-- **C12.** Word serialisation round-trips: reading the 32 bytes that
`to_big_endian(v, out)` wrote back with `from_big_endian(out, out + 32)` yields `v`, in
either branch of `to_big_endian` and on either kind of host. -/
theorem word_serialisation_round_trip (hostBig : Bool) (base v : Nat) (mem : List Nat)
    (off : Nat) (hv : v < UINT256_MOD) (hroom : off + 32 ≤ mem.length) :
    from_big_endian (((to_big_endian hostBig base v mem off).drop off).take 32) = v := by
  rw [to_big_endian_region hostBig base v mem off hroom, from_big_endian_word_bytes,
    Nat.mod_eq_of_lt hv]

/-- The largest word, written at an unaligned address and read back. -/
theorem word_serialisation_round_trip_witness :
    (2 ^ 256 - 1 < UINT256_MOD ∧ 3 + 32 ≤ (List.replicate 40 7).length) ∧
    from_big_endian
      (((to_big_endian false 0 (2 ^ 256 - 1) (List.replicate 40 7) 3).drop 3).take 32) =
      2 ^ 256 - 1 :=
  ⟨⟨by decide, by decide⟩,
    word_serialisation_round_trip false 0 (2 ^ 256 - 1) (List.replicate 40 7) 3 (by decide)
      (by decide)⟩

/-- **C13.** The textual encoding of a word round-trips: `from_hex_str(to_hex_str(v))`
and `from_hex_str(to_lower_hex_str(v))` are `v`, so `from_json(to_json(v))` is `v` for a
`uint256_t`; the text starts with the `0x` the decoder accepts. -/
theorem hex_text_round_trip (v : Nat) (hv : v < UINT256_MOD) :
    from_hex_str (to_hex_str v) = some v ∧
    from_hex_str (to_lower_hex_str v) = some v ∧
    multiprecision.from_json (multiprecision.to_json v) = some v ∧
    to_hex_str v = '0' :: 'x' :: uint256_hex v ∧
    to_lower_hex_str v = '0' :: 'x' :: uint256_hex v := by
  refine ⟨from_hex_str_to_hex_str v hv, from_hex_str_to_lower_hex_str v hv, ?_, rfl, ?_⟩
  · simp only [multiprecision.from_json, multiprecision.to_json, Json.get_string,
      Option.some_bind]
    exact from_hex_str_to_lower_hex_str v hv
  · rw [to_lower_hex_str_eq]; rfl

/-- The word zero: its text is `0x0`, and it reads back as zero. -/
theorem hex_text_round_trip_witness :
    0 < UINT256_MOD ∧
    (from_hex_str (to_hex_str 0) = some 0 ∧
    from_hex_str (to_lower_hex_str 0) = some 0 ∧
    multiprecision.from_json (multiprecision.to_json 0) = some 0 ∧
    to_hex_str 0 = '0' :: 'x' :: uint256_hex 0 ∧
    to_lower_hex_str 0 = '0' :: 'x' :: uint256_hex 0) ∧
    to_hex_str 0 = "0x0".toList ∧ from_hex_str "0x0".toList = some 0 :=
  ⟨by decide, hex_text_round_trip 0 (by decide), by decide, by decide⟩

/-- **C14.** `create_a_plus_b_bytecode(a, b)` returns exactly 75 bytes: `PUSH32`, the 32
bytes of `a` in big-endian order, `PUSH32`, the 32 bytes of `b`, then `ADD`, `PUSH1`,
`0x00`, `MSTORE`, `PUSH1`, `0x20`, `PUSH1`, `0x00`, `RETURN`. Every call of
`push_uint256` appends 33 bytes, the opcode and the encoding of the word, and leaves the
bytes already in the code unchanged. -/
theorem create_a_plus_b_bytecode_layout (hostBig : Bool) (addr_a addr_b a b : Nat) :
    create_a_plus_b_bytecode hostBig addr_a addr_b a b =
      [Opcode.PUSH32] ++ word_bytes a ++ [Opcode.PUSH32] ++ word_bytes b ++
        [Opcode.ADD, Opcode.PUSH1, 0x00, Opcode.MSTORE, Opcode.PUSH1, 0x20, Opcode.PUSH1, 0x00,
          Opcode.RETURN] ∧
    (create_a_plus_b_bytecode hostBig addr_a addr_b a b).length = 75 ∧
    (word_bytes a).length = 32 ∧ (word_bytes b).length = 32 ∧
    (∀ i, i < 32 → (word_bytes a)[i]? = some ((a >>> (8 * (31 - i))) % 256)) ∧
    (∀ i, i < 32 → (word_bytes b)[i]? = some ((b >>> (8 * (31 - i))) % 256)) ∧
    (∀ (data_addr : Nat) (code : List Nat) (n : Nat),
      push_uint256 hostBig data_addr code n = code ++ Opcode.PUSH32 :: word_bytes n ∧
      (push_uint256 hostBig data_addr code n).length = code.length + 33 ∧
      (push_uint256 hostBig data_addr code n).take code.length = code) := by
  refine ⟨?_, ?_, word_bytes_length a, word_bytes_length b,
    fun i hi => word_bytes_getElem? a i hi, fun i hi => word_bytes_getElem? b i hi, ?_⟩
  · rw [create_a_plus_b_bytecode_eq]; simp
  · rw [create_a_plus_b_bytecode_eq]; simp [word_bytes_length]
  · intro data_addr code n
    rw [push_uint256_eq]
    refine ⟨rfl, ?_, ?_⟩
    · simp [word_bytes_length]
    · exact List.take_left' rfl

/-- **C15.** The two implementations inside `to_big_endian` agree: the loop over four
64-bit limbs, each converted from native to big-endian byte order, and the loop over 32
single bytes leave the same buffer, so the result does not depend on the alignment of
the output pointer. -/
theorem to_big_endian_branches_agree (hostBig : Bool) (v : Nat) (mem : List Nat) (off : Nat)
    (hroom : off + 32 ≤ mem.length) :
    to_big_endian_loop64 hostBig 4 v mem off = to_big_endian_loop8 32 v mem off ∧
    (∀ base base', to_big_endian hostBig base v mem off = to_big_endian hostBig base' v mem off) ∧
    to_big_endian_loop64 true 4 v mem off = to_big_endian_loop64 false 4 v mem off := by
  have h := to_big_endian_loops_agree hostBig v mem off hroom
  refine ⟨h, ?_, ?_⟩
  · intro base base'
    unfold to_big_endian
    by_cases h1 : ((base + off) % alignof_uint64 == 0) = true
    · by_cases h2 : ((base' + off) % alignof_uint64 == 0) = true
      · rw [if_pos h1, if_pos h2]
      · rw [if_pos h1, if_neg h2]; exact h
    · by_cases h2 : ((base' + off) % alignof_uint64 == 0) = true
      · rw [if_neg h1, if_pos h2]; exact h.symm
      · rw [if_neg h1, if_neg h2]
  · rw [to_big_endian_loops_agree true v mem off hroom,
      to_big_endian_loops_agree false v mem off hroom]

/-- A word with 32 different bytes, written into a 32-byte buffer by both loops. -/
theorem to_big_endian_branches_agree_witness :
    0 + 32 ≤ (List.replicate 32 0).length ∧
    (to_big_endian_loop64 false 4 0x0102030405060708090a0b0c0d0e0f101112131415161718191a1b1c1d1e1f20
        (List.replicate 32 0) 0 =
      to_big_endian_loop8 32 0x0102030405060708090a0b0c0d0e0f101112131415161718191a1b1c1d1e1f20
        (List.replicate 32 0) 0 ∧
    (∀ base base',
      to_big_endian false base 0x0102030405060708090a0b0c0d0e0f101112131415161718191a1b1c1d1e1f20
        (List.replicate 32 0) 0 =
      to_big_endian false base' 0x0102030405060708090a0b0c0d0e0f101112131415161718191a1b1c1d1e1f20
        (List.replicate 32 0) 0) ∧
    to_big_endian_loop64 true 4 0x0102030405060708090a0b0c0d0e0f101112131415161718191a1b1c1d1e1f20
        (List.replicate 32 0) 0 =
      to_big_endian_loop64 false 4
        0x0102030405060708090a0b0c0d0e0f101112131415161718191a1b1c1d1e1f20
        (List.replicate 32 0) 0) ∧
    to_big_endian_loop8 32 0x0102030405060708090a0b0c0d0e0f101112131415161718191a1b1c1d1e1f20
      (List.replicate 32 0) 0 =
      [1, 2, 3, 4, 5, 6, 7, 8, 9, 10, 11, 12, 13, 14, 15, 16, 17, 18, 19, 20, 21, 22, 23, 24,
        25, 26, 27, 28, 29, 30, 31, 32] :=
  ⟨by decide,
    to_big_endian_branches_agree false
      0x0102030405060708090a0b0c0d0e0f101112131415161718191a1b1c1d1e1f20
      (List.replicate 32 0) 0 (by decide),
    by decide⟩

/-- **C16.** `to_lower_hex_str(v)` is `0x` followed by a run of characters from
`0123456789abcdef` that is not empty, has no leading zero digit unless `v = 0` (whose
text is `0x0`), and has the base-16 value `v`; it is `to_hex_str(v)` with every character
lower-cased, and lower-casing it again changes nothing. -/
theorem to_lower_hex_str_shape (v : Nat) (hv : v < UINT256_MOD) :
    ∃ ds : List Nat, to_lower_hex_str v = '0' :: 'x' :: ds.map hex_char ∧
      ds ≠ [] ∧ (∀ d ∈ ds, d < 16) ∧
      (∀ c ∈ ds.map hex_char, c ∈ "0123456789abcdef".toList) ∧
      ((ds.map hex_char).head? = some '0' → v = 0) ∧
      (v = 0 → to_lower_hex_str v = "0x0".toList) ∧
      digits_value ds = v ∧
      to_lower_hex_str v = (to_hex_str v).map tolower ∧
      (to_lower_hex_str v).map tolower = to_lower_hex_str v := by
  obtain ⟨ds, hds, hne, hlt, hval, hhead, hzero⟩ := uint256_hex_digits v hv
  have hstr : to_lower_hex_str v = '0' :: 'x' :: ds.map hex_char := by
    rw [to_lower_hex_str_eq, ← hds]; rfl
  refine ⟨ds, hstr, hne, hlt, ?_, ?_, ?_, hval, rfl, ?_⟩
  · intro c hc
    obtain ⟨d, hd, rfl⟩ := List.mem_map.mp hc
    have := hlt d hd
    interval_cases d <;> decide
  · intro h
    cases ds with
    | nil => exact absurd rfl hne
    | cons d r =>
      simp only [List.map_cons, List.head?_cons, Option.some.injEq] at h
      have hd0 : d = 0 :=
        ((hex_char_facts d (hlt d (List.mem_cons_self _ _))).2.2.2).mp (by rw [h]; decide)
      exact hhead (by rw [hd0]; rfl)
  · intro h0
    rw [hstr, hzero h0]
    decide
  · rw [to_lower_hex_str_eq]
    exact to_lower_hex_str_eq v

/-- The word `0xABC`: its text is `0xabc`; the word zero: its text is `0x0`. -/
theorem to_lower_hex_str_shape_witness :
    0xABC < UINT256_MOD ∧
    (∃ ds : List Nat, to_lower_hex_str 0xABC = '0' :: 'x' :: ds.map hex_char ∧
      ds ≠ [] ∧ (∀ d ∈ ds, d < 16) ∧
      (∀ c ∈ ds.map hex_char, c ∈ "0123456789abcdef".toList) ∧
      ((ds.map hex_char).head? = some '0' → 0xABC = 0) ∧
      (0xABC = 0 → to_lower_hex_str 0xABC = "0x0".toList) ∧
      digits_value ds = 0xABC ∧
      to_lower_hex_str 0xABC = (to_hex_str 0xABC).map tolower ∧
      (to_lower_hex_str 0xABC).map tolower = to_lower_hex_str 0xABC) ∧
    to_lower_hex_str 0xABC = "0xabc".toList ∧ to_lower_hex_str 0 = "0x0".toList :=
  ⟨by decide, to_lower_hex_str_shape 0xABC (by decide), by decide, by decide⟩

/-- **C17 (as stated, refuted).** With `argc = 3` and the operand `+`, which
`from_hex_str` does not parse, `main` returns no exit code at all, neither 2 nor 0: the
exception leaves `main`, whatever the library would do in an execution. -/
theorem main_operand_exception :
    ¬ (["+".toList, "0x2".toList].length + 1 < 3 ∨ ["+".toList, "0x2".toList].length + 1 > 4 ∨
      (["+".toList, "0x2".toList].length + 1 = 4 ∧
        ("sum".toList :: ["+".toList, "0x2".toList]).getD 1 [] ≠ "-v".toList)) ∧
    from_hex_str "+".toList = none ∧
    (∀ host : Host, main host "sum".toList ["+".toList, "0x2".toList] = none) ∧
    (∀ host : Host,
      (main host "sum".toList ["+".toList, "0x2".toList]).map Prod.fst ≠ some 2 ∧
      (main host "sum".toList ["+".toList, "0x2".toList]).map Prod.fst ≠ some 0) := by
  have h : ∀ host : Host, main host "sum".toList ["+".toList, "0x2".toList] = none :=
    fun host => (main_parse_failure host "sum".toList "+".toList "0x2".toList
      (Or.inl (by decide))).1
  refine ⟨by decide, by decide, h, ?_⟩
  intro host
  rw [h host]
  exact ⟨by simp, by simp⟩

/-- **C17 (amended).** The exit codes of `main`. It returns 1, from `usage` and whatever
the library would do, exactly when `argc < 3`, `argc > 4`, or `argc = 4` and `argv[1]` is
not `-v`. Otherwise the arguments are two operands, with or without `-v` in front: when
`from_hex_str` parses both, `main` returns 2 if the exit reason of the execution is not
`returned` and 0 if it is; when it throws on one of them, `main` returns nothing. With
`-v` the exit code is the same as without, the operands are `argv[2]` and `argv[3]`
instead of `argv[1]` and `argv[2]`, and what is printed without `-v` is part of what is
printed with it. No exit code other than 0, 1 and 2 is returned. -/
theorem main_exit_codes (host : Host) (bin_name : List Char) (args : List (List Char)) :
    ((main host bin_name args).map Prod.fst = some 1 ↔
      (args.length + 1 < 3 ∨ args.length + 1 > 4 ∨
        (args.length + 1 = 4 ∧ (bin_name :: args).getD 1 [] ≠ "-v".toList))) ∧
    ((args.length + 1 < 3 ∨ args.length + 1 > 4 ∨
        (args.length + 1 = 4 ∧ (bin_name :: args).getD 1 [] ≠ "-v".toList)) →
      ∀ host' : Host, main host' bin_name args = some (usage bin_name)) ∧
    (¬ (args.length + 1 < 3 ∨ args.length + 1 > 4 ∨
        (args.length + 1 = 4 ∧ (bin_name :: args).getD 1 [] ≠ "-v".toList)) →
      ∃ x y, args = [x, y] ∨ args = ["-v".toList, x, y]) ∧
    (∀ (x y : List Char) (a b : Nat), from_hex_str x = some a → from_hex_str y = some b →
      (main host bin_name [x, y]).map Prod.fst =
        some (if (main_execution host a b).er ≠ ExitReason.returned then 2 else 0) ∧
      (main host bin_name ["-v".toList, x, y]).map Prod.fst =
        some (if (main_execution host a b).er ≠ ExitReason.returned then 2 else 0)) ∧
    (∀ x y : List Char, (from_hex_str x = none ∨ from_hex_str y = none) →
      main host bin_name [x, y] = none ∧ main host bin_name ["-v".toList, x, y] = none) ∧
    (∀ x y : List Char, (main host bin_name ["-v".toList, x, y]).map Prod.fst =
      (main host bin_name [x, y]).map Prod.fst) ∧
    (∀ x y : List Char,
      validate_args [bin_name, "-v".toList, x, y] = some (true, 2) ∧
      [bin_name, "-v".toList, x, y].getD 2 [] = x ∧
      [bin_name, "-v".toList, x, y].getD (2 + 1) [] = y ∧
      validate_args [bin_name, x, y] = some (false, 1) ∧
      [bin_name, x, y].getD 1 [] = x ∧ [bin_name, x, y].getD (1 + 1) [] = y) ∧
    (∀ (x y : List Char) (c c' : Int) (out out' : List Printed),
      main host bin_name [x, y] = some (c, out) →
      main host bin_name ["-v".toList, x, y] = some (c', out') →
      c' = c ∧ out.Sublist out') ∧
    (∀ (c : Int) (out : List Printed), main host bin_name args = some (c, out) →
      c = 0 ∨ c = 1 ∨ c = 2) := by
  have hcases : validate_args (bin_name :: args) ≠ none →
      (main host bin_name args).map Prod.fst ≠ some 1 ∧
      ∀ c out, main host bin_name args = some (c, out) → c = 0 ∨ c = 2 := by
    intro hv
    obtain ⟨x, y, h | h⟩ := validate_args_some bin_name args hv
    · rw [h]; exact main_plain_exit_code_ne_one host bin_name x y
    · rw [h]
      obtain ⟨h1, h2⟩ := main_plain_exit_code_ne_one host bin_name x y
      refine ⟨by rw [main_verbose_exit_code]; exact h1, ?_⟩
      intro c out hc
      have hx := main_verbose_exit_code host bin_name x y
      rw [hc] at hx
      cases hp : main host bin_name [x, y] with
      | none => rw [hp] at hx; exact absurd hx (by simp)
      | some r =>
        obtain ⟨c2, out2⟩ := r
        rw [hp] at hx
        simp only [Option.map_some', Option.some.injEq] at hx
        rw [hx]
        exact h2 c2 out2 hp
  refine ⟨?_, ?_, ?_, ?_, main_parse_failure host bin_name,
    main_verbose_exit_code host bin_name, ?_, main_verbose_printed host bin_name, ?_⟩
  · constructor
    · intro h
      by_contra hc
      have hv : validate_args (bin_name :: args) ≠ none :=
        fun hn => hc ((validate_args_none_iff bin_name args).mp hn)
      exact (hcases hv).1 h
    · intro h
      rw [main_usage host bin_name args ((validate_args_none_iff bin_name args).mpr h)]
      rfl
  · intro h host'
    exact main_usage host' bin_name args ((validate_args_none_iff bin_name args).mpr h)
  · intro h
    exact validate_args_some bin_name args
      (fun hn => h ((validate_args_none_iff bin_name args).mp hn))
  · intro x y a b ha hb
    have h := main_plain_exit_code host bin_name x y
    rw [ha, hb] at h
    exact ⟨h, by rw [main_verbose_exit_code]; exact h⟩
  · intro x y
    exact ⟨validate_args_verbose bin_name x y, rfl, rfl, validate_args_plain bin_name x y, rfl,
      rfl⟩
  · intro c out hc
    by_cases hv : validate_args (bin_name :: args) = none
    · rw [main_usage host bin_name args hv] at hc
      simp only [usage, Option.some.injEq, Prod.mk.injEq] at hc
      exact Or.inr (Or.inl hc.1.symm)
    · rcases (hcases hv).2 c out hc with h | h
      · exact Or.inl h
      · exact Or.inr (Or.inr h)

/-- Four runs of `main` on a host whose execution returns the 32 bytes of 3, and one on
a host whose execution throws: no arguments, two operands, `-v` and two operands, an
operand that does not parse, and two operands with the throwing execution. -/
theorem main_exit_codes_witness :
    ((main ⟨false, 0, 0, fun _ => 0, fun _ _ => 5,
        fun _ _ _ _ => ⟨ExitReason.returned, word_bytes 3, 0⟩⟩ "sum".toList []).map Prod.fst =
        some 1 ↔
      (([] : List (List Char)).length + 1 < 3 ∨ ([] : List (List Char)).length + 1 > 4 ∨
        (([] : List (List Char)).length + 1 = 4 ∧
          ("sum".toList :: ([] : List (List Char))).getD 1 [] ≠ "-v".toList))) ∧
    main ⟨false, 0, 0, fun _ => 0, fun _ _ => 5,
        fun _ _ _ _ => ⟨ExitReason.returned, word_bytes 3, 0⟩⟩ "sum".toList [] =
      some (1, [Printed.usage_line "sum".toList, Printed.usage_help]) ∧
    main ⟨false, 0, 0, fun _ => 0, fun _ _ => 5,
        fun _ _ _ _ => ⟨ExitReason.returned, word_bytes 3, 0⟩⟩ "sum".toList
        ["0x1".toList, "0x2".toList] =
      some (0, [Printed.sum_line "0x1".toList "0x2".toList "0x3".toList]) ∧
    (main ⟨false, 0, 0, fun _ => 0, fun _ _ => 5,
        fun _ _ _ _ => ⟨ExitReason.returned, word_bytes 3, 0⟩⟩ "sum".toList
        ["-v".toList, "0x1".toList, "0x2".toList]).map Prod.fst = some 0 ∧
    main ⟨false, 0, 0, fun _ => 0, fun _ _ => 5,
        fun _ _ _ _ => ⟨ExitReason.returned, word_bytes 3, 0⟩⟩ "sum".toList
        ["+".toList, "0x2".toList] = none ∧
    main ⟨false, 0, 0, fun _ => 0, fun _ _ => 5,
        fun _ _ _ _ => ⟨ExitReason.threw, [], 0⟩⟩ "sum".toList
        ["0x1".toList, "0x2".toList] =
      some (2, [Printed.unexpected_return_code ExitReason.threw]) :=
  ⟨(main_exit_codes ⟨false, 0, 0, fun _ => 0, fun _ _ => 5,
      fun _ _ _ _ => ⟨ExitReason.returned, word_bytes 3, 0⟩⟩ "sum".toList []).1,
    by decide, by decide, by decide, by decide, by decide⟩

end eEVM
